import Mathlib

set_option maxRecDepth 8000

/-!
Verification of the Merkle Mountain Range implementation in `src/Mmr.ts`.

Shallow embedding conventions:

* `Field` values are modelled by the free algebra `F`: `F.fld k` is an
  injected constant (`Field(k)`, leaf input values, or the field image of a
  `UInt64` counter), and `F.H a b` is `Poseidon.hash([a, b])`.  Treating the
  two-input hash as a free constructor is the usual idealisation of a
  collision-resistant hash.
* `UInt64` values are modelled by `Nat`.  On every input domain used by the
  theorems below the TypeScript `UInt64` arithmetic neither overflows nor
  underflows (o1js throws in those cases), so the `Nat` translation agrees
  with the source; theorems carry explicit bounds (positions below `2 ^ 63`,
  leaf counts below `2 ^ 61`) that keep the execution inside that domain.
* The source's fixed 64-iteration `Provable`-style loops (`pow2`,
  `bitLength`, `getHeight`, `count_ones`) are translated as 64-step fuelled
  recursions, exactly mirroring the unrolled loops.  The genuinely unbounded
  `while` loops (`findPeaks`, the merge loop of `append`, the climb loop of
  `getProof`) are translated as fuelled recursions with generous fuel; the
  correctness lemmas prove the fuel is never exhausted on the stated
  domains, and fuel exhaustion is reported as an explicit error value
  distinct from the errors thrown by the source.
* The position-indexed hash array is modelled as a total function
  `Nat → F`.  The constructor preallocates `MAX_ELEMENTS` entries filled
  with `Field(0)`; in JavaScript an assignment beyond the current length
  extends the array, and the algorithm writes positions `1, 2, 3, ...`
  consecutively, so the array behaves exactly like a total map that is
  `Field(0)` wherever it has not been written.
* Code that throws is translated with `Except`; each distinct `throw` site
  gets its own error constructor.
-/

/-- Free hash algebra standing for o1js `Field` together with
`Poseidon.hash` on two-element inputs. -/
inductive F : Type where
  | fld : Nat → F
  | H : F → F → F
deriving DecidableEq

/-- Decidable equality of `Except` results (for concrete evaluations). -/
instance {e a : Type} [DecidableEq e] [DecidableEq a] : DecidableEq (Except e a) := fun
  | .error x, .error y =>
      if h : x = y then .isTrue (by rw [h])
      else .isFalse (by intro hc; injection hc; contradiction)
  | .error _, .ok _ => .isFalse (by intro hc; exact Except.noConfusion hc)
  | .ok _, .error _ => .isFalse (by intro hc; exact Except.noConfusion hc)
  | .ok x, .ok y =>
      if h : x = y then .isTrue (by rw [h])
      else .isFalse (by intro hc; injection hc; contradiction)

/-- `const MAX_ELEMENTS = 2097151` from `Mmr.ts` (the preallocated length of
the `hashes` array). -/
def MAX_ELEMENTS : Nat := 2097151

/-- The `Proof` struct of `Mmr.ts`. -/
structure Proof where
  elementIndex : Nat
  elementHash : F
  siblingsHashes : List F
  peaksHashes : List F
  elementsCount : Nat
deriving DecidableEq

/-- The state of the `MerkleMountainRange` struct of `Mmr.ts`; the `hashes`
array is modelled as a total function (see the header comment). -/
structure MerkleMountainRange where
  leavesCount : Nat
  elementsCount : Nat
  hashes : Nat → F
  rootHash : F

/-- The freshly constructed store: zero counters, all-zero hash array,
zero root. -/
def emptyMMR : MerkleMountainRange :=
  { leavesCount := 0, elementsCount := 0, hashes := fun _ => F.fld 0, rootHash := F.fld 0 }

/-! ## The fixed-width helper functions of `Mmr.ts`

Each mirrors the 64-iteration unrolled loop in the source. -/

/-- One unrolled loop of `pow2`: 64 iterations of "if `exp > 1` then double
`result` and decrement `exp`". -/
def pow2Aux : Nat → Nat → Nat → Nat
  | 0, result, _ => result
  | fuel + 1, result, exp =>
      if 1 < exp then pow2Aux fuel (result * 2) (exp - 1) else pow2Aux fuel result exp

/-- `pow2(exponent)` from `Mmr.ts`: starts from `result = 1`,
`exp = exponent + 1` and runs the 64-iteration loop. -/
def pow2 (exponent : Nat) : Nat := pow2Aux 64 1 (exponent + 1)

/-- One unrolled loop of `bitLength`: 64 iterations of "if `temp > 0` then
increment `length` and halve `temp`". -/
def bitLengthAux : Nat → Nat → Nat → Nat
  | 0, length, _ => length
  | fuel + 1, length, temp =>
      if 0 < temp then bitLengthAux fuel (length + 1) (temp / 2) else bitLengthAux fuel length temp

/-- `bitLength(num)` from `Mmr.ts`. -/
def bitLength (num : Nat) : Nat := bitLengthAux 64 0 num

/-- `allOnes(num)` from `Mmr.ts`: `num == 2 ^ bitLength(num) - 1`. -/
def allOnes (num : Nat) : Bool := num = pow2 (bitLength num) - 1

/-- The 64-iteration loop body of `getHeight`: while `h` is not all ones,
replace it by `h - (2 ^ (bitLength h - 1) - 1)`. -/
def getHeightAux : Nat → Nat → Nat
  | 0, h => h
  | fuel + 1, h =>
      getHeightAux fuel (if !allOnes h then h - (pow2 (bitLength h - 1) - 1) else h)

/-- `getHeight(elementIndex)` from `Mmr.ts`. -/
def getHeight (elementIndex : Nat) : Nat := bitLength (getHeightAux 64 elementIndex) - 1

/-- The 64-iteration loop of `count_ones`: add the least significant bit of
`temp` to `sum` and halve `temp` (the halving is guarded by `temp > 0` in
the source, which is the same thing on `Nat`). -/
def countOnesAux : Nat → Nat → Nat → Nat
  | 0, sum, _ => sum
  | fuel + 1, sum, temp =>
      countOnesAux fuel (if temp % 2 = 1 then sum + 1 else sum) (if 0 < temp then temp / 2 else temp)

/-- `count_ones(n)` from `Mmr.ts` (a method of the struct, but it reads no
state). -/
def count_ones (n : Nat) : Nat := countOnesAux 64 0 n

/-- `leaf_count_to_mmr_size(leafCount) = 2 * leafCount - count_ones(leafCount)`
from `Mmr.ts`. -/
def leaf_count_to_mmr_size (leafCount : Nat) : Nat := leafCount * 2 - count_ones leafCount

/-- `siblingOffset(height) = pow2(height)` from `Mmr.ts`. -/
def siblingOffset (height : Nat) : Nat := pow2 height

/-- `parentOffset(height) = pow2(height + 1) - 1` from `Mmr.ts`. -/
def parentOffset (height : Nat) : Nat := pow2 (height + 1) - 1

/-- `bintreeJumpRightSibling` from `Mmr.ts`. -/
def bintreeJumpRightSibling (elementIndex : Nat) : Nat :=
  elementIndex + (pow2 (getHeight elementIndex + 1) - 1)

/-- `bintreeMoveDownLeft` from `Mmr.ts`: `0` when the height is zero, else
`elementIndex - 2 ^ height`. -/
def bintreeMoveDownLeft (elementIndex : Nat) : Nat :=
  if getHeight elementIndex = 0 then 0 else elementIndex - pow2 (getHeight elementIndex)

/-! ## `findPeaks` -/

/-- The first loop of `findPeaks`: double `top` while `top - 1 <= elementCount`. -/
def findPeaksTop : Nat → Nat → Nat → Nat
  | 0, _, top => top
  | fuel + 1, ec, top => if top - 1 ≤ ec then findPeaksTop fuel ec (top * 2) else top

/-- The inner loop of `findPeaks`: while `peak > elementCount`, move down
left; the return value `0` encodes the `outer = false` break. -/
def findPeaksInner : Nat → Nat → Nat → Nat
  | 0, _, peak => peak
  | fuel + 1, ec, peak =>
      if ec < peak then
        let next := bintreeMoveDownLeft peak
        if next = 0 then 0 else findPeaksInner fuel ec next
      else peak

/-- The outer loop of `findPeaks`: jump to the right sibling, settle it with
the inner loop, and push it unless the inner loop signalled termination. -/
def findPeaksOuter : Nat → Nat → Nat → List Nat → List Nat
  | 0, _, _, acc => acc
  | fuel + 1, ec, peak, acc =>
      let next := findPeaksInner 70 ec (bintreeJumpRightSibling peak)
      if next = 0 then acc else findPeaksOuter fuel ec next (acc ++ [next])

/-- `findPeaks(elementCount)` from `Mmr.ts`. -/
def findPeaks (elementCount : Nat) : List Nat :=
  if elementCount = 0 then []
  else
    let top := findPeaksTop 70 elementCount 1 / 2 - 1
    if top = 0 then [1]
    else findPeaksOuter 70 elementCount top [top]

/-! ## Bagging and root computation -/

/-- `bagThePeaks(peaks)` from `Mmr.ts`, translated literally: empty list
gives `Field(0)`, singleton gives the peak, otherwise hash the last two
peaks and fold the reversed remaining prefix with `(prev, cur) ↦ H(cur, prev)`. -/
def bagThePeaks (peaks : List F) : F :=
  if peaks.length = 0 then F.fld 0
  else if peaks.length = 1 then peaks.getD 0 (F.fld 0)
  else
    let root0 := F.H (peaks.getD (peaks.length - 2) (F.fld 0)) (peaks.getD (peaks.length - 1) (F.fld 0))
    ((peaks.take (peaks.length - 2)).reverse).foldl (fun prev cur => F.H cur prev) root0

/-- `calculateRootHash(bag, leafCount) = Poseidon.hash([leafCount.value, bag])`
from `Mmr.ts`. -/
def calculateRootHash (bag : F) (leafCount : Nat) : F := F.H (F.fld leafCount) bag

/-- `retrievePeaksHashes(peaksIndices)` from `Mmr.ts`. -/
def retrievePeaksHashes (s : MerkleMountainRange) (peaksIndices : List Nat) : List F :=
  peaksIndices.map (fun index => s.hashes index)

/-- `getPeaks()` from `Mmr.ts`. -/
def getPeaks (s : MerkleMountainRange) : List F :=
  retrievePeaksHashes s (findPeaks s.elementsCount)

/-! ## `append` -/

/-- Errors of `append`: `notEnoughPeaks` is the source's thrown
`'Not enough elements in peaks to pop'`; `outOfFuel` marks exhaustion of the
fuel bounding the merge loop (the loop is unbounded in the source; the
theorems below show the fuel suffices on all reachable states). -/
inductive AppendError : Type where
  | notEnoughPeaks : AppendError
  | outOfFuel : AppendError
deriving DecidableEq

/-- The record returned by `append`. -/
structure AppendResult where
  leavesCount : Nat
  elementsCount : Nat
  elementIndex : Nat
  rootHash : F
deriving DecidableEq

/-- Pointwise update of the hash array. -/
def updateHash (hashes : Nat → F) (i : Nat) (v : F) : Nat → F :=
  fun j => if j = i then v else hashes j

/-- The merge loop of `append`: while `getHeight(lastElementIdx + 1) > height`,
pop the two most recent peaks, store their parent hash at the next position
and push it back. -/
def appendLoop : Nat → (Nat → F) → List F → Nat → Nat → Except AppendError ((Nat → F) × List F × Nat)
  | 0, _, _, _, _ => .error .outOfFuel
  | fuel + 1, hashes, peaks, lastElementIdx, height =>
      if height < getHeight (lastElementIdx + 1) then
        let lastIdx := lastElementIdx + 1
        if peaks.length < 2 then .error .notEnoughPeaks
        else
          let rightHash := peaks.getLastD (F.fld 0)
          let peaks1 := peaks.dropLast
          let leftHash := peaks1.getLastD (F.fld 0)
          let parentHash := F.H leftHash rightHash
          appendLoop fuel (updateHash hashes lastIdx parentHash) (peaks1.dropLast ++ [parentHash]) lastIdx (height + 1)
      else .ok (hashes, peaks, lastElementIdx)

/-- `append(value)` from `Mmr.ts`: read the current peaks, store the value
at the next position, run the merge loop, then recompute the bagged root. -/
def append (s : MerkleMountainRange) (value : F) :
    Except AppendError (MerkleMountainRange × AppendResult) :=
  let peaksIndices := findPeaks s.elementsCount
  let peaks := retrievePeaksHashes s peaksIndices
  let lastElementIdx := s.elementsCount + 1
  let leafElementIndex := lastElementIdx
  match appendLoop 64 (updateHash s.hashes lastElementIdx value) (peaks ++ [value]) lastElementIdx 0 with
  | .error e => .error e
  | .ok (hashes2, peaks2, lastIdx2) =>
      let rootHash := calculateRootHash (bagThePeaks peaks2) lastIdx2
      let s2 : MerkleMountainRange :=
        { leavesCount := s.leavesCount + 1, elementsCount := lastIdx2,
          hashes := hashes2, rootHash := rootHash }
      .ok (s2, { leavesCount := s2.leavesCount, elementsCount := s2.elementsCount,
                 elementIndex := leafElementIndex, rootHash := rootHash })

/-- `clear()` from `Mmr.ts`: reset the counters and the root, and overwrite
the first `MAX_ELEMENTS` entries of the hash array with `Field(0)` (entries
beyond the preallocated length are left untouched by the source's loop). -/
def clear (s : MerkleMountainRange) : MerkleMountainRange :=
  { leavesCount := 0, elementsCount := 0,
    hashes := fun i => if i < MAX_ELEMENTS then F.fld 0 else s.hashes i,
    rootHash := F.fld 0 }

/-- Sequential appends from a given store, stopping at the first error. -/
def appendList : MerkleMountainRange → List F → Except AppendError MerkleMountainRange
  | s, [] => .ok s
  | s, v :: rest => (append s v).bind (fun p => appendList p.1 rest)

/-- Sequential appends from the empty store. -/
def appendAll (values : List F) : Except AppendError MerkleMountainRange :=
  appendList emptyMMR values

/-! ## `getProof` -/

/-- Errors of `getProof`: the two thrown index checks of the source, plus
fuel exhaustion of the climb loop (unbounded `while` in the source). -/
inductive GetProofError : Type where
  | indexTooSmall : GetProofError
  | indexTooLarge : GetProofError
  | outOfFuel : GetProofError
deriving DecidableEq

/-- The climb loop of `getProof`: while `index` is not a peak, record the
sibling position and advance (`+1` from a right child, `+parentOffset`
otherwise). -/
def getProofLoop : Nat → List Nat → Nat → List Nat → Option (List Nat)
  | 0, _, _, _ => none
  | fuel + 1, peaks, index, siblings =>
      if peaks.any (fun peak => peak == index) then some siblings
      else if getHeight (index + 1) = getHeight index + 1 then
        getProofLoop fuel peaks (index + 1) (siblings ++ [index - siblingOffset (getHeight index)])
      else
        getProofLoop fuel peaks (index + parentOffset (getHeight index)) (siblings ++ [index + siblingOffset (getHeight index)])

/-- `getProof(leafIndex)` from `Mmr.ts`. -/
def getProof (s : MerkleMountainRange) (leafIndex : Nat) : Except GetProofError Proof :=
  if leafIndex < 1 then .error .indexTooSmall
  else if s.elementsCount < leafIndex then .error .indexTooLarge
  else
    let treeSize := s.elementsCount
    let peaks := findPeaks treeSize
    match getProofLoop 200 peaks leafIndex [] with
    | none => .error .outOfFuel
    | some siblings =>
        .ok { elementIndex := leafIndex,
              elementHash := s.hashes leafIndex,
              siblingsHashes := siblings.map (fun sib => s.hashes sib),
              peaksHashes := retrievePeaksHashes s peaks,
              elementsCount := treeSize }

/-! ## `verifyProof` -/

/-- Errors of `verifyProof` (the two thrown index checks; the climb loop of
`verifyProof` iterates over the `siblingsHashes` list, so it is structural
and needs no fuel). -/
inductive VerifyError : Type where
  | indexTooSmall : VerifyError
  | indexTooLarge : VerifyError
deriving DecidableEq

/-- The reconstruction loop of `verifyProof`: combine the running hash with
each sibling hash, on the side determined by the height test. -/
def verifyClimb : List F → Nat → F → F
  | [], _, hash => hash
  | proofHash :: rest, elementIndex, hash =>
      if getHeight (elementIndex + 1) = getHeight elementIndex + 1 then
        verifyClimb rest (elementIndex + 1) (F.H proofHash hash)
      else
        verifyClimb rest (elementIndex + parentOffset (getHeight elementIndex)) (F.H hash proofHash)

/-- `verifyProof(leaf, proof)` from `Mmr.ts`.  Note that it is a method: the
final comparison is against `this.rootHash`, and the peak "substitution" map
returns `hash` exactly when the entry already equals `hash`. -/
def verifyProof (s : MerkleMountainRange) (leaf : F) (proof : Proof) : Except VerifyError Bool :=
  if proof.elementIndex < 1 then .error .indexTooSmall
  else if proof.elementsCount < proof.elementIndex then .error .indexTooLarge
  else
    let hash := verifyClimb proof.siblingsHashes proof.elementIndex leaf
    let reconstructedPeaks := proof.peaksHashes.map (fun peakHash => if peakHash = hash then hash else peakHash)
    let recomputedRootHash := calculateRootHash (bagThePeaks reconstructedPeaks) proof.elementsCount
    .ok (decide (recomputedRootHash = s.rootHash))

/-- `true` exactly on the results of `getProof` that correspond to the two
`InvalidIndex` throws of the source (fuel exhaustion is not one of them). -/
def isInvalidIndexResult : Except GetProofError Proof → Bool
  | .error .indexTooSmall => true
  | .error .indexTooLarge => true
  | _ => false

/-! ## Reference definitions

The following definitions are the mathematical reference side: binary
arithmetic (`sz`, `popcount`, `trailingOnes`, `trailingZeroBits`), the
canonical postorder height `heightNat`, the MMR size identity `mmrSize`,
the canonical peak decomposition (`peakPosFrom`, `peakHashList`, `pt`), and
the spec's description of bagging (`bagSpec`).  They are fuelled so that
they evaluate on concrete inputs; the fuel arguments are proved irrelevant
below. -/

/-- Fuelled bit length: `sz n` is the number of binary digits of `n`. -/
def szAux : Nat → Nat → Nat
  | 0, _ => 0
  | fuel + 1, n => if n = 0 then 0 else szAux fuel (n / 2) + 1

/-- Bit length of a natural number (`sz 0 = 0`, `sz n = sz (n / 2) + 1`). -/
def sz (n : Nat) : Nat := szAux n n

/-- Fuelled popcount. -/
def popcountAux : Nat → Nat → Nat
  | 0, _ => 0
  | fuel + 1, n => if n = 0 then 0 else popcountAux fuel (n / 2) + n % 2

/-- Number of set bits of a natural number. -/
def popcount (n : Nat) : Nat := popcountAux n n

/-- Fuelled count of trailing one bits. -/
def trailingOnesAux : Nat → Nat → Nat
  | 0, _ => 0
  | fuel + 1, n => if n % 2 = 1 then trailingOnesAux fuel (n / 2) + 1 else 0

/-- Number of trailing one bits of a natural number. -/
def trailingOnes (n : Nat) : Nat := trailingOnesAux n n

/-- Fuelled count of trailing zero bits. -/
def trailingZeroBitsAux : Nat → Nat → Nat
  | 0, _ => 0
  | fuel + 1, n => if n = 0 then 0 else if n % 2 = 1 then 0 else trailingZeroBitsAux fuel (n / 2) + 1

/-- Number of trailing zero bits in the binary representation of `n`
(`0` for `n = 0`). -/
def trailingZeroBits (n : Nat) : Nat := trailingZeroBitsAux n n

/-- Fuelled canonical MMR postorder height, see `heightNat`. -/
def heightNatAux : Nat → Nat → Nat
  | 0, p => sz p - 1
  | fuel + 1, p =>
      if p + 1 = 2 ^ sz p then sz p - 1 else heightNatAux fuel (p - (2 ^ (sz p - 1) - 1))

/-- Canonical height of the node at 1-indexed postorder position `p`: a
perfect tree of height `h` occupies `2 ^ (h + 1) - 1` positions with its
root at the last of them; equivalently `heightNat (2 ^ (k + 1) - 1) = k`
and `heightNat p = heightNat (p - (2 ^ (sz p - 1) - 1))` when `p` is not of
that all-ones form. -/
def heightNat (p : Nat) : Nat := heightNatAux p p

/-- Number of positions occupied by an MMR with `n` leaves:
`2n - popcount n`. -/
def mmrSize (n : Nat) : Nat := 2 * n - popcount n

/-- Fuelled perfect-tree hash, see `pt`. -/
def ptAux : Nat → List F → F
  | 0, vs => vs.headD (F.fld 0)
  | fuel + 1, vs =>
      if vs.length ≤ 1 then vs.headD (F.fld 0)
      else F.H (ptAux fuel (vs.take (vs.length / 2))) (ptAux fuel (vs.drop (vs.length / 2)))

/-- Root hash of the perfect binary tree over a list of `2 ^ e` leaf
values: pair up the two halves recursively. -/
def pt (vs : List F) : F := ptAux vs.length vs

/-- Fuelled canonical peak positions, see `peakPosFrom`. -/
def peakPosAux : Nat → Nat → Nat → List Nat
  | 0, _, _ => []
  | fuel + 1, off, n =>
      if n = 0 then []
      else
        let a := sz n - 1
        let pos := off + (2 ^ (a + 1) - 1)
        pos :: peakPosAux fuel pos (n - 2 ^ a)

/-- Canonical peak positions of an MMR with `n` leaves, shifted by `off`:
one peak per set bit of `n`, highest bit first, each peak sitting at the
running sum of the subtree sizes `2 ^ (e + 1) - 1`. -/
def peakPosFrom (off n : Nat) : List Nat := peakPosAux n off n

/-- Fuelled canonical peak hashes, see `peakHashList`. -/
def peakHashAux : Nat → List F → List F
  | 0, _ => []
  | fuel + 1, vs =>
      if vs.length = 0 then []
      else
        let a := sz vs.length - 1
        pt (vs.take (2 ^ a)) :: peakHashAux fuel (vs.drop (2 ^ a))

/-- Canonical peak hashes of the MMR over the given leaf values: split the
leaves into maximal power-of-two blocks (binary decomposition of the
length, highest bit first) and take the perfect-tree hash of each block. -/
def peakHashList (vs : List F) : List F := peakHashAux vs.length vs

/-- The bagging fold exactly as the spec describes it: empty gives the zero
sentinel, a singleton gives the peak, and otherwise the peaks are combined
right to left as `H(p_i, acc)` starting from `H(p_(k-1), p_k)`. -/
def bagSpec : List F → F
  | [] => F.fld 0
  | [p] => p
  | p :: q :: rest => F.H p (bagSpec (q :: rest))

/-- One step of the climb performed by `getProof` and `verifyProof`: from a
right child move to the parent at `index + 1`, from anything else move by
`parentOffset (getHeight index)`. -/
def proofStep (index : Nat) : Nat :=
  if getHeight (index + 1) = getHeight index + 1 then index + 1
  else index + parentOffset (getHeight index)

/-- Iterated climb steps. -/
def proofStepIter : Nat → Nat → Nat
  | 0, index => index
  | k + 1, index => proofStepIter k (proofStep index)

/-- The three leaf values of the spec's concrete scenario (stand-ins for
`A`, `B`, `C`). -/
def demoValues : List F := [F.fld 10, F.fld 20, F.fld 30]

/-- The store obtained by appending the given values to the empty store
(used to state concrete scenarios without an existential). -/
def storeOf (vs : List F) : MerkleMountainRange :=
  match appendAll vs with
  | .ok s => s
  | .error _ => emptyMMR

/-- The proof returned by `getProof s i` (with a dummy fallback, used to
state concrete scenarios without an existential). -/
def proofAt (s : MerkleMountainRange) (i : Nat) : Proof :=
  match getProof s i with
  | .ok pf => pf
  | .error _ => { elementIndex := 0, elementHash := F.fld 0,
                  siblingsHashes := [], peaksHashes := [], elementsCount := 0 }

/-! ## Basic facts about the fuelled binary arithmetic -/

theorem szAux_zero (fuel : Nat) : szAux fuel 0 = 0 := by
  cases fuel <;> simp [szAux]

theorem szAux_congr : ∀ f g n : Nat, n ≤ f → n ≤ g → szAux f n = szAux g n := by
  intro f
  induction f with
  | zero =>
      intro g n hf _
      have h0 : n = 0 := by omega
      subst h0
      simp [szAux_zero]
  | succ f ih =>
      intro g n hf hg
      rcases Nat.eq_zero_or_pos n with h0 | h1
      · subst h0; simp [szAux_zero]
      · obtain ⟨g', rfl⟩ : ∃ k, g = k + 1 := ⟨g - 1, by omega⟩
        have hne : n ≠ 0 := by omega
        have hhalf : n / 2 < n := Nat.div_lt_self h1 (by omega)
        simp only [szAux, if_neg hne]
        rw [ih g' (n / 2) (by omega) (by omega)]

theorem sz_zero : sz 0 = 0 := rfl

theorem sz_succ (n : Nat) (h : 1 ≤ n) : sz n = sz (n / 2) + 1 := by
  obtain ⟨m, rfl⟩ : ∃ k, n = k + 1 := ⟨n - 1, by omega⟩
  show szAux (m + 1) (m + 1) = _
  have hhalf : (m + 1) / 2 < m + 1 := Nat.div_lt_self (by omega) (by omega)
  simp only [szAux, if_neg (show ¬(m + 1 = 0) by omega)]
  rw [szAux_congr m ((m + 1) / 2) ((m + 1) / 2) (by omega) le_rfl]
  rfl

theorem lt_two_pow_sz (n : Nat) : n < 2 ^ sz n := by
  induction n using Nat.strong_induction_on with
  | _ n ih =>
    rcases Nat.eq_zero_or_pos n with h0 | h1
    · subst h0; simp [sz_zero]
    · rw [sz_succ n h1, pow_succ]
      have := ih (n / 2) (Nat.div_lt_self h1 (by omega))
      omega

theorem sz_pos (n : Nat) (h : 1 ≤ n) : 1 ≤ sz n := by
  rw [sz_succ n h]; omega

theorem two_pow_sz_le : ∀ n : Nat, 1 ≤ n → 2 ^ (sz n - 1) ≤ n := by
  intro n
  induction n using Nat.strong_induction_on with
  | _ n ih =>
    intro h1
    rcases Nat.lt_or_ge n 2 with h2 | h2
    · have : n = 1 := by omega
      subst this
      simp [sz_succ 1 le_rfl, sz_zero]
    · have hhalf1 : 1 ≤ n / 2 := by omega
      have ihh := ih (n / 2) (Nat.div_lt_self (by omega) (by omega)) hhalf1
      rw [sz_succ n (by omega)]
      have hp : 1 ≤ sz (n / 2) := sz_pos _ hhalf1
      have heq : 2 ^ (sz (n / 2) + 1 - 1) = 2 * 2 ^ (sz (n / 2) - 1) := by
        rw [Nat.add_sub_cancel]
        calc 2 ^ sz (n / 2) = 2 ^ (sz (n / 2) - 1 + 1) := by congr 1; omega
        _ = 2 * 2 ^ (sz (n / 2) - 1) := by rw [pow_succ]; ring
      omega

theorem lt_sz_of_pow_le (j n : Nat) (h : 2 ^ j ≤ n) : j < sz n := by
  by_contra hc
  push_neg at hc
  have h1 : n < 2 ^ sz n := lt_two_pow_sz n
  have h2 : (2 : Nat) ^ sz n ≤ 2 ^ j := Nat.pow_le_pow_right (by omega) hc
  omega

theorem sz_le_iff (n k : Nat) : sz n ≤ k ↔ n < 2 ^ k := by
  constructor
  · intro h
    exact lt_of_lt_of_le (lt_two_pow_sz n) (Nat.pow_le_pow_right (by omega) h)
  · intro h
    by_contra hc
    push_neg at hc
    have h2 : 2 ^ k ≤ n := by
      rcases Nat.eq_zero_or_pos n with h0 | h1
      · subst h0; simp [sz_zero] at hc
      · calc 2 ^ k ≤ 2 ^ (sz n - 1) := Nat.pow_le_pow_right (by omega) (by omega)
        _ ≤ n := two_pow_sz_le n h1
    omega

theorem sz_two_pow_sub_one (k : Nat) : sz (2 ^ k - 1) = k := by
  rcases Nat.eq_zero_or_pos k with h0 | h1
  · subst h0; simp [sz_zero]
  · have hle : sz (2 ^ k - 1) ≤ k := (sz_le_iff _ _).2 (by
      have := Nat.one_le_two_pow (n := k)
      omega)
    have hge : k - 1 < sz (2 ^ k - 1) := by
      apply lt_sz_of_pow_le
      have h2 : (2 : Nat) ^ (k - 1 + 1) = 2 * 2 ^ (k - 1) := by rw [pow_succ]; ring
      have h3 : k - 1 + 1 = k := by omega
      have h4 := Nat.one_le_two_pow (n := k - 1)
      have h5 : (2 : Nat) ^ k = 2 * 2 ^ (k - 1) := by rw [← h2, h3]
      omega
    omega

theorem sz_two_pow (k : Nat) : sz (2 ^ k) = k + 1 := by
  have hle : sz (2 ^ k) ≤ k + 1 := (sz_le_iff _ _).2 (by
    have h2 : (2:Nat) ^ (k + 1) = 2 * 2 ^ k := by rw [pow_succ]; ring
    have := Nat.one_le_two_pow (n := k)
    omega)
  have hge : k < sz (2 ^ k) := lt_sz_of_pow_le k _ le_rfl
  omega

theorem sz_high_bit (n : Nat) (a : Nat) (hlo : 2 ^ a ≤ n) (hhi : n < 2 ^ (a + 1)) :
    sz n = a + 1 := by
  have h1 : sz n ≤ a + 1 := (sz_le_iff _ _).2 hhi
  have h2 : a < sz n := lt_sz_of_pow_le a n hlo
  omega

theorem popcountAux_zero (fuel : Nat) : popcountAux fuel 0 = 0 := by
  cases fuel <;> simp [popcountAux]

theorem popcountAux_congr : ∀ f g n : Nat, n ≤ f → n ≤ g → popcountAux f n = popcountAux g n := by
  intro f
  induction f with
  | zero =>
      intro g n hf _
      have h0 : n = 0 := by omega
      subst h0
      simp [popcountAux_zero]
  | succ f ih =>
      intro g n hf hg
      rcases Nat.eq_zero_or_pos n with h0 | h1
      · subst h0; simp [popcountAux_zero]
      · obtain ⟨g', rfl⟩ : ∃ k, g = k + 1 := ⟨g - 1, by omega⟩
        have hne : n ≠ 0 := by omega
        have hhalf : n / 2 < n := Nat.div_lt_self h1 (by omega)
        simp only [popcountAux, if_neg hne]
        rw [ih g' (n / 2) (by omega) (by omega)]

theorem popcount_zero : popcount 0 = 0 := rfl

theorem popcount_succ (n : Nat) (h : 1 ≤ n) : popcount n = popcount (n / 2) + n % 2 := by
  obtain ⟨m, rfl⟩ : ∃ k, n = k + 1 := ⟨n - 1, by omega⟩
  show popcountAux (m + 1) (m + 1) = _
  have hhalf : (m + 1) / 2 < m + 1 := Nat.div_lt_self (by omega) (by omega)
  simp only [popcountAux, if_neg (show ¬(m + 1 = 0) by omega)]
  rw [popcountAux_congr m ((m + 1) / 2) ((m + 1) / 2) (by omega) le_rfl]
  rfl

theorem popcount_pos : ∀ n : Nat, 1 ≤ n → 1 ≤ popcount n := by
  intro n
  induction n using Nat.strong_induction_on with
  | _ n ih =>
    intro h
    rw [popcount_succ n h]
    rcases Nat.lt_or_ge n 2 with h2 | h2
    · have : n = 1 := by omega
      subst this
      simp
    · have := ih (n / 2) (Nat.div_lt_self (by omega) (by omega)) (by omega)
      omega

theorem popcount_le : ∀ n : Nat, popcount n ≤ n := by
  intro n
  induction n using Nat.strong_induction_on with
  | _ n ih =>
    rcases Nat.eq_zero_or_pos n with h0 | h1
    · subst h0; simp [popcount_zero]
    · rw [popcount_succ n h1]
      have := ih (n / 2) (Nat.div_lt_self h1 (by omega))
      omega

theorem trailingOnesAux_zero (fuel : Nat) : trailingOnesAux fuel 0 = 0 := by
  cases fuel <;> simp [trailingOnesAux]

theorem trailingOnesAux_congr : ∀ f g n : Nat, n ≤ f → n ≤ g → trailingOnesAux f n = trailingOnesAux g n := by
  intro f
  induction f with
  | zero =>
      intro g n hf _
      have h0 : n = 0 := by omega
      subst h0
      simp [trailingOnesAux_zero]
  | succ f ih =>
      intro g n hf hg
      rcases Nat.eq_zero_or_pos n with h0 | h1
      · subst h0; simp [trailingOnesAux_zero]
      · obtain ⟨g', rfl⟩ : ∃ k, g = k + 1 := ⟨g - 1, by omega⟩
        rcases Nat.eq_zero_or_pos (n % 2) with he | ho
        · simp [trailingOnesAux, he]
        · have ho1 : n % 2 = 1 := by omega
          have hhalf : n / 2 < n := Nat.div_lt_self h1 (by omega)
          simp only [trailingOnesAux, if_pos ho1]
          rw [ih g' (n / 2) (by omega) (by omega)]

theorem trailingOnes_even (n : Nat) (h : n % 2 = 0) : trailingOnes n = 0 := by
  rcases Nat.eq_zero_or_pos n with h0 | h1
  · subst h0; rfl
  · obtain ⟨m, rfl⟩ : ∃ k, n = k + 1 := ⟨n - 1, by omega⟩
    show trailingOnesAux (m + 1) (m + 1) = 0
    simp [trailingOnesAux, h]

theorem trailingOnes_odd (n : Nat) (h : n % 2 = 1) : trailingOnes n = trailingOnes (n / 2) + 1 := by
  obtain ⟨m, rfl⟩ : ∃ k, n = k + 1 := ⟨n - 1, by omega⟩
  show trailingOnesAux (m + 1) (m + 1) = _
  have hhalf : (m + 1) / 2 < m + 1 := Nat.div_lt_self (by omega) (by omega)
  simp only [trailingOnesAux, if_pos h]
  rw [trailingOnesAux_congr m ((m + 1) / 2) ((m + 1) / 2) (by omega) le_rfl]
  rfl

theorem trailingOnes_le_popcount : ∀ n : Nat, trailingOnes n ≤ popcount n := by
  intro n
  induction n using Nat.strong_induction_on with
  | _ n ih =>
    rcases Nat.eq_zero_or_pos n with h0 | h1
    · subst h0; simp [trailingOnes_even 0 rfl, popcount_zero]
    · rcases Nat.eq_zero_or_pos (n % 2) with he | ho
      · simp [trailingOnes_even n he]
      · have ho1 : n % 2 = 1 := by omega
        rw [trailingOnes_odd n ho1, popcount_succ n h1, ho1]
        have := ih (n / 2) (Nat.div_lt_self h1 (by omega))
        omega

theorem popcount_succ_trailingOnes : ∀ n : Nat, popcount (n + 1) + trailingOnes n = popcount n + 1 := by
  intro n
  induction n using Nat.strong_induction_on with
  | _ n ih =>
    rcases Nat.eq_zero_or_pos n with h0 | h1
    · subst h0
      simp [popcount_zero, trailingOnes_even 0 rfl]
      show popcountAux 1 1 = 1
      simp [popcountAux, popcountAux_zero]
    · rcases Nat.eq_zero_or_pos (n % 2) with he | ho
      · have hsucc : (n + 1) % 2 = 1 := by omega
        rw [popcount_succ (n + 1) (by omega), trailingOnes_even n he, hsucc]
        have hdiv : (n + 1) / 2 = n / 2 := by omega
        rw [hdiv]
        have hn := popcount_succ n h1
        omega
      · have ho1 : n % 2 = 1 := by omega
        have hsucc : (n + 1) % 2 = 0 := by omega
        have hdiv : (n + 1) / 2 = n / 2 + 1 := by omega
        rw [popcount_succ (n + 1) (by omega), hsucc, hdiv]
        have ihh := ih (n / 2) (Nat.div_lt_self h1 (by omega))
        rw [trailingOnes_odd n ho1, popcount_succ n h1, ho1]
        omega

theorem popcount_high_bit : ∀ a n : Nat, n < 2 ^ a → popcount (2 ^ a + n) = popcount n + 1 := by
  intro a
  induction a with
  | zero =>
      intro n h
      have h0 : n = 0 := by omega
      subst h0
      show popcountAux 1 1 = _
      simp [popcountAux, popcountAux_zero, popcount_zero]
  | succ a ih =>
      intro n h
      have hpow : (2:Nat) ^ (a + 1) = 2 * 2 ^ a := by rw [pow_succ]; ring
      have hpa : 1 ≤ (2:Nat) ^ a := Nat.one_le_two_pow
      have hm : 1 ≤ 2 ^ (a + 1) + n := by omega
      have hmod : (2 ^ (a + 1) + n) % 2 = n % 2 := by omega
      have hdiv : (2 ^ (a + 1) + n) / 2 = 2 ^ a + n / 2 := by omega
      rw [popcount_succ _ hm, hmod, hdiv, ih (n / 2) (by omega)]
      rcases Nat.eq_zero_or_pos n with h0 | h1
      · subst h0; simp
      · have hn := popcount_succ n h1
        omega

theorem trailingOnes_high_bit : ∀ a n : Nat, n < 2 ^ a →
    trailingOnes (2 ^ a + n) = if n = 2 ^ a - 1 then a + 1 else trailingOnes n := by
  intro a
  induction a with
  | zero =>
      intro n h
      have h0 : n = 0 := by omega
      subst h0
      simp
      show trailingOnesAux 1 1 = 1
      simp [trailingOnesAux, trailingOnesAux_zero]
  | succ a ih =>
      intro n h
      have hpow : (2:Nat) ^ (a + 1) = 2 * 2 ^ a := by rw [pow_succ]; ring
      have hpa : 1 ≤ (2:Nat) ^ a := Nat.one_le_two_pow
      have hmod : (2 ^ (a + 1) + n) % 2 = n % 2 := by omega
      rcases Nat.eq_zero_or_pos (n % 2) with he | ho
      · rw [trailingOnes_even _ (by omega), trailingOnes_even n (by omega)]
        rw [if_neg (by omega)]
      · have ho1 : n % 2 = 1 := by omega
        have hdiv : (2 ^ (a + 1) + n) / 2 = 2 ^ a + n / 2 := by omega
        rw [trailingOnes_odd _ (by omega), hdiv, ih (n / 2) (by omega)]
        rw [trailingOnes_odd n ho1]
        by_cases hall : n = 2 ^ (a + 1) - 1
        · have : n / 2 = 2 ^ a - 1 := by omega
          rw [if_pos this, if_pos hall]
        · have : n / 2 ≠ 2 ^ a - 1 := by omega
          rw [if_neg this, if_neg hall]

theorem mmrSize_zero : mmrSize 0 = 0 := rfl

theorem mmrSize_succ (n : Nat) : mmrSize (n + 1) = mmrSize n + 1 + trailingOnes n := by
  have h1 := popcount_succ_trailingOnes n
  have h2 := popcount_le n
  have h3 := popcount_le (n + 1)
  have h4 := trailingOnes_le_popcount n
  show 2 * (n + 1) - popcount (n + 1) = 2 * n - popcount n + 1 + trailingOnes n
  omega

theorem mmrSize_high_bit (a n : Nat) (h : n < 2 ^ a) :
    mmrSize (2 ^ a + n) = (2 ^ (a + 1) - 1) + mmrSize n := by
  have h1 := popcount_high_bit a n h
  have h2 := popcount_le n
  have hpow : (2:Nat) ^ (a + 1) = 2 * 2 ^ a := by rw [pow_succ]; ring
  have hpa : 1 ≤ (2:Nat) ^ a := Nat.one_le_two_pow
  show 2 * (2 ^ a + n) - popcount (2 ^ a + n) = _
  rw [h1]
  show _ = 2 ^ (a + 1) - 1 + (2 * n - popcount n)
  omega

theorem mmrSize_pow (a : Nat) : mmrSize (2 ^ a) = 2 ^ (a + 1) - 1 := by
  have := mmrSize_high_bit a 0 (by positivity)
  simpa [mmrSize_zero] using this

theorem mmrSize_le (n : Nat) (h : 1 ≤ n) : mmrSize n ≤ 2 * n - 1 := by
  have := popcount_pos n h
  show 2 * n - popcount n ≤ 2 * n - 1
  omega

theorem mmrSize_lt_of_lt (n b : Nat) (h : n < b) : mmrSize n ≤ 2 * b - 2 := by
  have := popcount_le n
  show 2 * n - popcount n ≤ 2 * b - 2
  omega

theorem sz_le_self (n : Nat) (h : 1 ≤ n) : sz n ≤ n :=
  (sz_le_iff n n).2 (Nat.lt_two_pow n)

theorem heightStep_bounds (p : Nat) (h1 : 1 ≤ p) (h2 : p + 1 ≠ 2 ^ sz p) :
    1 ≤ p - (2 ^ (sz p - 1) - 1) ∧ sz (p - (2 ^ (sz p - 1) - 1)) < sz p := by
  have hszp : 1 ≤ sz p := sz_pos p h1
  have hlo : 2 ^ (sz p - 1) ≤ p := two_pow_sz_le p h1
  have hhi : p < 2 ^ sz p := lt_two_pow_sz p
  have hne : p ≤ 2 ^ sz p - 2 := by omega
  have hpow : 2 ^ sz p = 2 * 2 ^ (sz p - 1) := by
    calc 2 ^ sz p = 2 ^ (sz p - 1 + 1) := by congr 1; omega
    _ = 2 * 2 ^ (sz p - 1) := by rw [pow_succ]; ring
  have hp1 : 1 ≤ 2 ^ (sz p - 1) := Nat.one_le_two_pow
  refine ⟨by omega, ?_⟩
  have : p - (2 ^ (sz p - 1) - 1) < 2 ^ (sz p - 1) := by omega
  have := (sz_le_iff (p - (2 ^ (sz p - 1) - 1)) (sz p - 1)).2 this
  omega

theorem heightNatAux_p_zero (fuel : Nat) : heightNatAux fuel 0 = 0 := by
  cases fuel with
  | zero => simp [heightNatAux, sz_zero]
  | succ f => simp [heightNatAux, sz_zero]

theorem heightNatAux_congr : ∀ f g p : Nat, sz p ≤ f → sz p ≤ g → heightNatAux f p = heightNatAux g p := by
  intro f
  induction f with
  | zero =>
      intro g p hf _
      have h0 : p = 0 := by
        by_contra hc
        have := sz_pos p (by omega)
        omega
      subst h0
      simp [heightNatAux_p_zero]
  | succ f ih =>
      intro g p hf hg
      rcases Nat.eq_zero_or_pos p with h0 | h1
      · subst h0; simp [heightNatAux_p_zero]
      · by_cases hall : p + 1 = 2 ^ sz p
        · obtain ⟨g', rfl⟩ : ∃ k, g = k + 1 := ⟨g - 1, by have := sz_pos p h1; omega⟩
          simp only [heightNatAux, if_pos hall]
        · obtain ⟨g', rfl⟩ : ∃ k, g = k + 1 := ⟨g - 1, by have := sz_pos p h1; omega⟩
          obtain ⟨hb1, hb2⟩ := heightStep_bounds p h1 hall
          simp only [heightNatAux, if_neg hall]
          exact ih g' _ (by omega) (by omega)

theorem heightNat_allOnes (p : Nat) (h : p + 1 = 2 ^ sz p) : heightNat p = sz p - 1 := by
  rcases Nat.eq_zero_or_pos p with h0 | h1
  · subst h0; simp [heightNat, heightNatAux_p_zero, sz_zero]
  · obtain ⟨m, rfl⟩ : ∃ k, p = k + 1 := ⟨p - 1, by omega⟩
    show heightNatAux (m + 1) (m + 1) = _
    simp only [heightNatAux, if_pos h]

theorem heightNat_step (p : Nat) (h1 : 1 ≤ p) (h2 : p + 1 ≠ 2 ^ sz p) :
    heightNat p = heightNat (p - (2 ^ (sz p - 1) - 1)) := by
  obtain ⟨hb1, hb2⟩ := heightStep_bounds p h1 h2
  obtain ⟨m, rfl⟩ : ∃ k, p = k + 1 := ⟨p - 1, by omega⟩
  show heightNatAux (m + 1) (m + 1) = _
  simp only [heightNatAux, if_neg h2]
  apply heightNatAux_congr
  · have := sz_le_self (m + 1) (by omega)
    omega
  · exact sz_le_self _ hb1

theorem heightNat_all_ones_value (k : Nat) : heightNat (2 ^ (k + 1) - 1) = k := by
  have h1 : 1 ≤ (2:Nat) ^ (k + 1) := Nat.one_le_two_pow
  have hsz : sz (2 ^ (k + 1) - 1) = k + 1 := sz_two_pow_sub_one (k + 1)
  have := heightNat_allOnes (2 ^ (k + 1) - 1) (by rw [hsz]; omega)
  rw [hsz] at this
  omega

theorem heightNat_one : heightNat 1 = 0 := by
  have := heightNat_all_ones_value 0
  norm_num at this
  exact this

theorem heightNat_peel (k x : Nat) (h1 : 1 ≤ x) (h2 : x ≤ 2 ^ k - 1) :
    heightNat (2 ^ k - 1 + x) = heightNat x := by
  have hk : 1 ≤ k := by
    by_contra hc
    have : k = 0 := by omega
    subst this
    norm_num at h2
    omega
  have hpk : 1 ≤ (2:Nat) ^ k := Nat.one_le_two_pow
  have hpow : (2:Nat) ^ (k + 1) = 2 * 2 ^ k := by rw [pow_succ]; ring
  set p := 2 ^ k - 1 + x with hp
  have hlo : 2 ^ k ≤ p := by omega
  have hhi : p < 2 ^ (k + 1) := by omega
  have hsz : sz p = k + 1 := sz_high_bit p k hlo hhi
  have hnall : p + 1 ≠ 2 ^ sz p := by rw [hsz]; omega
  have := heightNat_step p (by omega) hnall
  rw [hsz] at this
  simp only [Nat.add_sub_cancel] at this
  have harg : p - (2 ^ k - 1) = x := by omega
  rw [harg] at this
  exact this

theorem heightNat_mmrSize_add_one : ∀ n : Nat, heightNat (mmrSize n + 1) = 0 := by
  intro n
  induction n using Nat.strong_induction_on with
  | _ n ih =>
    rcases Nat.eq_zero_or_pos n with h0 | h1
    · subst h0; simpa [mmrSize_zero] using heightNat_one
    · set a := sz n - 1 with ha
      have hlo : 2 ^ a ≤ n := two_pow_sz_le n h1
      have h3 : sz n = a + 1 := by have := sz_pos n h1; omega
      have hhi : n < 2 ^ (a + 1) := by rw [← h3]; exact lt_two_pow_sz n
      obtain ⟨r, hr⟩ : ∃ r, n = 2 ^ a + r := ⟨n - 2 ^ a, by omega⟩
      have hrlt : r < 2 ^ a := by omega
      have hsize : mmrSize n = (2 ^ (a + 1) - 1) + mmrSize r := by rw [hr]; exact mmrSize_high_bit a r hrlt
      have hple : mmrSize r + 1 ≤ 2 ^ (a + 1) - 1 := by
        have hr2 : mmrSize r ≤ 2 * r := by
          show 2 * r - popcount r ≤ 2 * r
          omega
        have hpow : (2:Nat) ^ (a + 1) = 2 * 2 ^ a := by rw [pow_succ]; ring
        omega
      have heq : mmrSize n + 1 = 2 ^ (a + 1) - 1 + (mmrSize r + 1) := by omega
      rw [heq, heightNat_peel (a + 1) (mmrSize r + 1) (by omega) hple]
      exact ih r (by
        have := Nat.one_le_two_pow (n := a)
        omega)

theorem popcount_two_pow_sub_one : ∀ a : Nat, popcount (2 ^ a - 1) = a := by
  intro a
  induction a with
  | zero => simp [popcount_zero]
  | succ a iha =>
      have hp2 : (2:Nat) ^ (a + 1) = 2 * 2 ^ a := by rw [pow_succ]; ring
      have h1le : 1 ≤ (2:Nat) ^ a := Nat.one_le_two_pow
      have hm : 1 ≤ 2 ^ (a + 1) - 1 := by omega
      have hmod : (2 ^ (a + 1) - 1) % 2 = 1 := by omega
      have hdiv : (2 ^ (a + 1) - 1) / 2 = 2 ^ a - 1 := by omega
      rw [popcount_succ _ hm, hmod, hdiv, iha]

theorem trailingOnes_two_pow_sub_one : ∀ a : Nat, trailingOnes (2 ^ a - 1) = a := by
  intro a
  induction a with
  | zero => simp [trailingOnes_even 0 rfl]
  | succ a iha =>
      have hp2 : (2:Nat) ^ (a + 1) = 2 * 2 ^ a := by rw [pow_succ]; ring
      have h1le : 1 ≤ (2:Nat) ^ a := Nat.one_le_two_pow
      have hmod : (2 ^ (a + 1) - 1) % 2 = 1 := by omega
      have hdiv : (2 ^ (a + 1) - 1) / 2 = 2 ^ a - 1 := by omega
      rw [trailingOnes_odd _ hmod, hdiv, iha]

theorem heightNat_merge_pos : ∀ n j : Nat, 1 ≤ j → j ≤ trailingOnes n →
    heightNat (mmrSize n + 1 + j) = j := by
  intro n
  induction n using Nat.strong_induction_on with
  | _ n ih =>
    intro j hj1 hj2
    rcases Nat.eq_zero_or_pos n with h0 | h1
    · subst h0
      rw [trailingOnes_even 0 rfl] at hj2
      omega
    · set a := sz n - 1 with ha
      have hlo : 2 ^ a ≤ n := two_pow_sz_le n h1
      have h3 : sz n = a + 1 := by have := sz_pos n h1; omega
      have hhi : n < 2 ^ (a + 1) := by rw [← h3]; exact lt_two_pow_sz n
      obtain ⟨r, hr⟩ : ∃ r, n = 2 ^ a + r := ⟨n - 2 ^ a, by omega⟩
      have hrlt : r < 2 ^ a := by omega
      have hsize : mmrSize n = (2 ^ (a + 1) - 1) + mmrSize r := by
        rw [hr]; exact mmrSize_high_bit a r hrlt
      have hto : trailingOnes n = if r = 2 ^ a - 1 then a + 1 else trailingOnes r := by
        rw [hr]; exact trailingOnes_high_bit a r hrlt
      have hpow : (2:Nat) ^ (a + 1) = 2 * 2 ^ a := by rw [pow_succ]; ring
      have hpa : 1 ≤ (2:Nat) ^ a := Nat.one_le_two_pow
      by_cases hall : r = 2 ^ a - 1
      · rw [hto, if_pos hall] at hj2
        have hsr : mmrSize r = 2 * (2 ^ a - 1) - a := by
          rw [hall]
          show 2 * (2 ^ a - 1) - popcount (2 ^ a - 1) = _
          rw [popcount_two_pow_sub_one]
        have hale : a ≤ 2 ^ a - 1 := by
          have := Nat.lt_two_pow a
          omega
        by_cases hj : j = a + 1
        · subst hj
          have hgoal : mmrSize n + 1 + (a + 1) = 2 ^ (a + 2) - 1 := by
            have hpow2 : (2:Nat) ^ (a + 2) = 2 * 2 ^ (a + 1) := by rw [pow_succ]; ring
            omega
          rw [hgoal]
          exact heightNat_all_ones_value (a + 1)
        · have hjle : j ≤ a := by omega
          have hx : mmrSize n + 1 + j = (2 ^ (a + 1) - 1) + (mmrSize r + 1 + j) := by omega
          have hxle : mmrSize r + 1 + j ≤ 2 ^ (a + 1) - 1 := by omega
          rw [hx, heightNat_peel (a + 1) (mmrSize r + 1 + j) (by omega) hxle]
          apply ih r (by omega) j hj1
          rw [hall, trailingOnes_two_pow_sub_one]
          omega
      · rw [hto, if_neg hall] at hj2
        rcases Nat.eq_zero_or_pos r with hr0 | hr1
        · subst hr0
          rw [trailingOnes_even 0 rfl] at hj2
          omega
        · have hjpc : j ≤ popcount r := le_trans hj2 (trailingOnes_le_popcount r)
          have hpcr : popcount r ≤ r := popcount_le r
          have hmr : mmrSize r = 2 * r - popcount r := rfl
          have hpcpos : 1 ≤ popcount r := popcount_pos r hr1
          have hx : mmrSize n + 1 + j = (2 ^ (a + 1) - 1) + (mmrSize r + 1 + j) := by omega
          have hxle : mmrSize r + 1 + j ≤ 2 ^ (a + 1) - 1 := by omega
          rw [hx, heightNat_peel (a + 1) (mmrSize r + 1 + j) (by omega) hxle]
          exact ih r (by omega) j hj1 hj2

theorem pow2Aux_eq : ∀ fuel r x : Nat, x ≤ fuel + 1 → pow2Aux fuel r x = r * 2 ^ (x - 1) := by
  intro fuel
  induction fuel with
  | zero =>
      intro r x h
      have : x - 1 = 0 := by omega
      simp [pow2Aux, this]
  | succ f ih =>
      intro r x h
      by_cases h1 : 1 < x
      · simp only [pow2Aux, if_pos h1]
        rw [ih (r * 2) (x - 1) (by omega)]
        have hx : x - 1 - 1 + 1 = x - 1 := by omega
        calc r * 2 * 2 ^ (x - 1 - 1) = r * 2 ^ (x - 1 - 1 + 1) := by rw [pow_succ]; ring
        _ = r * 2 ^ (x - 1) := by rw [hx]
      · simp only [pow2Aux, if_neg h1]
        exact ih r x (by omega)

theorem pow2_eq (e : Nat) (h : e ≤ 64) : pow2 e = 2 ^ e := by
  show pow2Aux 64 1 (e + 1) = 2 ^ e
  rw [pow2Aux_eq 64 1 (e + 1) (by omega)]
  simp

theorem bitLengthAux_eq : ∀ fuel l n : Nat, sz n ≤ fuel → bitLengthAux fuel l n = l + sz n := by
  intro fuel
  induction fuel with
  | zero =>
      intro l n h
      have h0 : n = 0 := by
        by_contra hc
        have := sz_pos n (by omega)
        omega
      subst h0
      simp [bitLengthAux, sz_zero]
  | succ f ih =>
      intro l n h
      rcases Nat.eq_zero_or_pos n with h0 | h1
      · subst h0
        simp only [bitLengthAux, if_neg (by omega : ¬(0:Nat) < 0)]
        rw [ih l 0 (by simp [sz_zero])]
      · simp only [bitLengthAux, if_pos h1]
        rw [ih (l + 1) (n / 2) (by rw [sz_succ n h1] at h; omega)]
        rw [sz_succ n h1]
        omega

theorem bitLength_eq (n : Nat) (h : sz n ≤ 64) : bitLength n = sz n := by
  show bitLengthAux 64 0 n = sz n
  rw [bitLengthAux_eq 64 0 n h]
  omega

theorem allOnes_iff (n : Nat) (h : sz n ≤ 64) : allOnes n = true ↔ n + 1 = 2 ^ sz n := by
  have hp : 1 ≤ (2:Nat) ^ sz n := Nat.one_le_two_pow
  unfold allOnes
  rw [bitLength_eq n h, pow2_eq (sz n) h]
  simp only [decide_eq_true_eq]
  omega

theorem getHeightAux_fixed (fuel p : Nat) (h : allOnes p = true) : getHeightAux fuel p = p := by
  induction fuel with
  | zero => rfl
  | succ f ih => simp only [getHeightAux, h, Bool.not_true, Bool.false_eq_true, if_false, ih]

theorem getHeightAux_heightNat : ∀ fuel p : Nat, 1 ≤ p → sz p ≤ fuel + 1 → sz p ≤ 64 →
    bitLength (getHeightAux fuel p) - 1 = heightNat p := by
  intro fuel
  induction fuel with
  | zero =>
      intro p h1 h2 h3
      have hp1 : p = 1 := by
        have ha := two_pow_sz_le p h1
        have hb := lt_two_pow_sz p
        have hc : sz p = 1 := by have := sz_pos p h1; omega
        rw [hc] at hb
        omega
      subst hp1
      show bitLength (getHeightAux 0 1) - 1 = heightNat 1
      rw [heightNat_one]
      have : getHeightAux 0 1 = 1 := rfl
      rw [this, bitLength_eq 1 (by rw [sz_succ 1 le_rfl]; simp [sz_zero]), sz_succ 1 le_rfl]
      simp [sz_zero]
  | succ f ih =>
      intro p h1 h2 h3
      by_cases hall : allOnes p = true
      · rw [getHeightAux_fixed (f + 1) p hall]
        rw [bitLength_eq p h3]
        rw [heightNat_allOnes p ((allOnes_iff p h3).1 hall)]
      · have hnall : p + 1 ≠ 2 ^ sz p := fun hc => hall ((allOnes_iff p h3).2 hc)
        obtain ⟨hb1, hb2⟩ := heightStep_bounds p h1 hnall
        have hstep : getHeightAux (f + 1) p = getHeightAux f (p - (2 ^ (sz p - 1) - 1)) := by
          simp only [getHeightAux, hall, Bool.not_false, if_true]
          congr 2
          rw [bitLength_eq p h3, pow2_eq (sz p - 1) (by omega)]
        rw [hstep, ih (p - (2 ^ (sz p - 1) - 1)) hb1 (by omega) (by omega)]
        exact (heightNat_step p h1 hnall).symm

theorem getHeight_eq (p : Nat) (h1 : 1 ≤ p) (h2 : p < 2 ^ 64) : getHeight p = heightNat p := by
  have h3 : sz p ≤ 64 := (sz_le_iff p 64).2 h2
  exact getHeightAux_heightNat 64 p h1 (by omega) h3

theorem countOnesAux_eq : ∀ fuel s n : Nat, sz n ≤ fuel → countOnesAux fuel s n = s + popcount n := by
  intro fuel
  induction fuel with
  | zero =>
      intro s n h
      have h0 : n = 0 := by
        by_contra hc
        have := sz_pos n (by omega)
        omega
      subst h0
      simp [countOnesAux, popcount_zero]
  | succ f ih =>
      intro s n h
      rcases Nat.eq_zero_or_pos n with h0 | h1
      · subst h0
        simp only [countOnesAux]
        rw [if_neg (by omega), if_neg (by omega)]
        rw [ih s 0 (by simp [sz_zero])]
      · have hhalf : sz (n / 2) ≤ f := by rw [sz_succ n h1] at h; omega
        simp only [countOnesAux, if_pos h1]
        by_cases hm : n % 2 = 1
        · rw [if_pos hm, ih (s + 1) (n / 2) hhalf, popcount_succ n h1, hm]
          omega
        · rw [if_neg hm, ih s (n / 2) hhalf, popcount_succ n h1]
          have : n % 2 = 0 := by omega
          omega

theorem count_ones_eq (n : Nat) (h : n < 2 ^ 64) : count_ones n = popcount n := by
  show countOnesAux 64 0 n = popcount n
  rw [countOnesAux_eq 64 0 n ((sz_le_iff n 64).2 h)]
  omega

theorem popcount_le_sz : ∀ n : Nat, popcount n ≤ sz n := by
  intro n
  induction n using Nat.strong_induction_on with
  | _ n ih =>
    rcases Nat.eq_zero_or_pos n with h0 | h1
    · subst h0; simp [popcount_zero, sz_zero]
    · rw [popcount_succ n h1, sz_succ n h1]
      have := ih (n / 2) (Nat.div_lt_self h1 (by omega))
      omega

theorem peakPosAux_congr : ∀ f g off n : Nat, n ≤ f → n ≤ g → peakPosAux f off n = peakPosAux g off n := by
  intro f
  induction f with
  | zero =>
      intro g off n hf _
      have h0 : n = 0 := by omega
      subst h0
      cases g <;> simp [peakPosAux]
  | succ f ih =>
      intro g off n hf hg
      rcases Nat.eq_zero_or_pos n with h0 | h1
      · subst h0; cases g <;> simp [peakPosAux]
      · obtain ⟨g', rfl⟩ : ∃ k, g = k + 1 := ⟨g - 1, by omega⟩
        have hne : n ≠ 0 := by omega
        have hp : 1 ≤ 2 ^ (sz n - 1) := Nat.one_le_two_pow
        simp only [peakPosAux, if_neg hne]
        congr 1
        exact ih g' _ _ (by omega) (by omega)

theorem peakPosFrom_zero (off : Nat) : peakPosFrom off 0 = [] := rfl

theorem peakPosFrom_succ (off n : Nat) (h : 1 ≤ n) :
    peakPosFrom off n =
      (off + (2 ^ (sz n - 1 + 1) - 1)) ::
        peakPosFrom (off + (2 ^ (sz n - 1 + 1) - 1)) (n - 2 ^ (sz n - 1)) := by
  obtain ⟨m, rfl⟩ : ∃ k, n = k + 1 := ⟨n - 1, by omega⟩
  show peakPosAux (m + 1) off (m + 1) = _
  have hp : 1 ≤ 2 ^ (sz (m + 1) - 1) := Nat.one_le_two_pow
  simp only [peakPosAux, if_neg (show ¬(m + 1 = 0) by omega)]
  congr 1
  exact peakPosAux_congr m _ _ _ (by omega) (by omega)

theorem peakPosFrom_length : ∀ n off : Nat, (peakPosFrom off n).length = popcount n := by
  intro n
  induction n using Nat.strong_induction_on with
  | _ n ih =>
    intro off
    rcases Nat.eq_zero_or_pos n with h0 | h1
    · subst h0; simp [peakPosFrom_zero, popcount_zero]
    · set a := sz n - 1 with ha
      have h3 : sz n = a + 1 := by have := sz_pos n h1; omega
      have hlo : 2 ^ a ≤ n := two_pow_sz_le n h1
      have hhi : n < 2 ^ (a + 1) := by rw [← h3]; exact lt_two_pow_sz n
      rw [peakPosFrom_succ off n h1]
      simp only [List.length_cons]
      rw [ih (n - 2 ^ a) (by have : 1 ≤ 2 ^ a := Nat.one_le_two_pow; omega) _]
      have hpc : popcount n = popcount (n - 2 ^ a) + 1 := by
        have := popcount_high_bit a (n - 2 ^ a) (by omega)
        have heq : 2 ^ a + (n - 2 ^ a) = n := by omega
        rw [heq] at this
        omega
      omega

theorem findPeaksTop_exit (fuel ec top : Nat) (h : ¬(top - 1 ≤ ec)) :
    findPeaksTop fuel ec top = top := by
  cases fuel with
  | zero => rfl
  | succ f =>
      simp only [findPeaksTop]
      rw [if_neg h]

theorem findPeaksTop_spec : ∀ fuel j ec : Nat, ec < 2 ^ (j + fuel) - 1 → 2 ^ j - 1 ≤ ec →
    ∃ K, findPeaksTop fuel ec (2 ^ j) = 2 ^ K ∧ ec < 2 ^ K - 1 ∧ 2 ^ (K - 1) - 1 ≤ ec ∧ j < K := by
  intro fuel
  induction fuel with
  | zero =>
      intro j ec h1 h2
      rw [Nat.add_zero] at h1
      omega
  | succ f ih =>
      intro j ec h1 h2
      have hpow : (2:Nat) ^ j * 2 = 2 ^ (j + 1) := (pow_succ 2 j).symm
      have hstep : findPeaksTop (f + 1) ec (2 ^ j) = findPeaksTop f ec (2 ^ (j + 1)) := by
        simp only [findPeaksTop]
        rw [if_pos h2, hpow]
      rw [hstep]
      by_cases h3 : 2 ^ (j + 1) - 1 ≤ ec
      · obtain ⟨K, hK⟩ := ih (j + 1) ec (by
          have : j + 1 + f = j + (f + 1) := by omega
          rw [this]; exact h1) h3
        exact ⟨K, hK.1, hK.2.1, hK.2.2.1, by omega⟩
      · rw [findPeaksTop_exit f ec (2 ^ (j + 1)) h3]
        exact ⟨j + 1, rfl, by omega, by simpa using h2, by omega⟩

theorem mmrSize_lb (n : Nat) (h : 1 ≤ n) : 2 ^ sz n - 1 ≤ mmrSize n := by
  set a := sz n - 1 with ha
  have h3 : sz n = a + 1 := by have := sz_pos n h; omega
  have hlo : 2 ^ a ≤ n := two_pow_sz_le n h
  have hhi : n < 2 ^ (a + 1) := by rw [← h3]; exact lt_two_pow_sz n
  obtain ⟨r, hr⟩ : ∃ r, n = 2 ^ a + r := ⟨n - 2 ^ a, by omega⟩
  have hsize : mmrSize n = (2 ^ (a + 1) - 1) + mmrSize r := by
    rw [hr]; exact mmrSize_high_bit a r (by omega)
  rw [h3]
  omega

theorem mmrSize_ub (n : Nat) (h : 1 ≤ n) : mmrSize n < 2 ^ (sz n + 1) - 1 := by
  have h1 := mmrSize_le n h
  have h2 := lt_two_pow_sz n
  have hpow : (2:Nat) ^ (sz n + 1) = 2 * 2 ^ sz n := by rw [pow_succ]; ring
  have := Nat.one_le_two_pow (n := sz n)
  omega

theorem findPeaksInner_zero : ∀ d fuel p : Nat, d + 2 ≤ fuel → 1 ≤ p →
    p + (2 ^ (d + 1) - 1) < 2 ^ 63 →
    (∀ x, 1 ≤ x → x ≤ 2 ^ (d + 1) - 1 → heightNat (p + x) = heightNat x) →
    findPeaksInner fuel p (p + (2 ^ (d + 1) - 1)) = 0 := by
  intro d
  induction d with
  | zero =>
      intro fuel p hfuel hp hbound hpeel
      obtain ⟨f, rfl⟩ : ∃ k, fuel = k + 1 := ⟨fuel - 1, by omega⟩
      have hc : p + (2 ^ (0 + 1) - 1) = p + 1 := by norm_num
      rw [hc]
      have hgt : p < p + 1 := by omega
      have hh : getHeight (p + 1) = 0 := by
        rw [getHeight_eq (p + 1) (by omega) (by norm_num at hbound; omega)]
        have := hpeel 1 le_rfl (by norm_num)
        rw [heightNat_one] at this
        simpa using this
      simp only [findPeaksInner, if_pos hgt, bintreeMoveDownLeft, hh]
      simp
  | succ d ih =>
      intro fuel p hfuel hp hbound hpeel
      obtain ⟨f, rfl⟩ : ∃ k, fuel = k + 1 := ⟨fuel - 1, by omega⟩
      have hpd : 1 ≤ (2:Nat) ^ (d + 1) := Nat.one_le_two_pow
      have hpd2 : (2:Nat) ^ (d + 2) = 2 * 2 ^ (d + 1) := by rw [pow_succ]; ring
      set c := p + (2 ^ (d + 1 + 1) - 1) with hc
      have hgt : p < c := by omega
      have hhc : getHeight c = d + 1 := by
        rw [getHeight_eq c (by omega) (by omega)]
        rw [hpeel (2 ^ (d + 1 + 1) - 1) (by omega) le_rfl]
        exact heightNat_all_ones_value (d + 1)
      have hnext : bintreeMoveDownLeft c = p + (2 ^ (d + 1) - 1) := by
        rw [bintreeMoveDownLeft, hhc]
        rw [if_neg (by omega), pow2_eq (d + 1) (by
          have : (2:Nat) ^ (d + 2) ≤ 2 ^ 63 := by omega
          have := (Nat.pow_le_pow_iff_right (a := 2) (by omega)).1 this
          omega)]
        omega
      simp only [findPeaksInner, if_pos hgt, hnext]
      rw [if_neg (by omega)]
      exact ih f p (by omega) hp (by omega) (fun x hx1 hx2 => hpeel x hx1 (by omega))

theorem findPeaksInner_descend : ∀ d fuel p eT n' : Nat,
    1 ≤ n' → d + 1 ≤ fuel → 1 ≤ p →
    p + (2 ^ (eT + d) - 1) < 2 ^ 63 →
    (∀ x, 1 ≤ x → x ≤ 2 ^ (eT + d) - 1 → heightNat (p + x) = heightNat x) →
    sz n' = eT →
    findPeaksInner fuel (p + mmrSize n') (p + (2 ^ (eT + d) - 1)) = p + (2 ^ eT - 1) := by
  intro d
  induction d with
  | zero =>
      intro fuel p eT n' hn hfuel hp hbound hpeel hsz
      have hlb : 2 ^ eT - 1 ≤ mmrSize n' := by
        have := mmrSize_lb n' hn
        rw [hsz] at this
        exact this
      have hle : ¬(p + mmrSize n' < p + (2 ^ (eT + 0) - 1)) := by
        rw [Nat.add_zero]
        omega
      cases fuel with
      | zero => simp only [Nat.add_zero]; rfl
      | succ f =>
          simp only [Nat.add_zero] at hle ⊢
          simp only [findPeaksInner]
          rw [if_neg hle]
  | succ d ih =>
      intro fuel p eT n' hn hfuel hp hbound hpeel hsz
      obtain ⟨f, rfl⟩ : ∃ k, fuel = k + 1 := ⟨fuel - 1, by omega⟩
      have heT : 1 ≤ eT := by rw [← hsz]; exact sz_pos n' hn
      have hpd : 1 ≤ (2:Nat) ^ (eT + d) := Nat.one_le_two_pow
      have hpow : (2:Nat) ^ (eT + (d + 1)) = 2 * 2 ^ (eT + d) := by
        rw [show eT + (d + 1) = eT + d + 1 by omega, pow_succ]; ring
      have hub : mmrSize n' < 2 ^ (eT + 1) - 1 := by
        have := mmrSize_ub n' hn
        rw [hsz] at this
        exact this
      have hmono : (2:Nat) ^ (eT + 1) ≤ 2 ^ (eT + (d + 1)) :=
        Nat.pow_le_pow_right (by omega) (by omega)
      set c := p + (2 ^ (eT + (d + 1)) - 1) with hc
      have hgt : p + mmrSize n' < c := by omega
      have hexp : eT + d ≤ 62 := by
        have h1 : (2:Nat) ^ (eT + (d + 1)) ≤ 2 ^ 63 := by omega
        have h2 := (Nat.pow_le_pow_iff_right (a := 2) (by omega)).1 h1
        omega
      have hhc : getHeight c = eT + d := by
        rw [getHeight_eq c (by omega) (by omega)]
        rw [hpeel (2 ^ (eT + (d + 1)) - 1) (by omega) le_rfl]
        rw [show eT + (d + 1) = eT + d + 1 by omega]
        exact heightNat_all_ones_value (eT + d)
      have hnext : bintreeMoveDownLeft c = p + (2 ^ (eT + d) - 1) := by
        rw [bintreeMoveDownLeft, hhc]
        rw [if_neg (by omega), pow2_eq (eT + d) (by omega)]
        omega
      simp only [findPeaksInner, if_pos hgt, hnext]
      rw [if_neg (by omega)]
      exact ih f p eT n' hn (by omega) hp (by omega)
        (fun x hx1 hx2 => hpeel x hx1 (by omega)) hsz

theorem findPeaksOuter_spec : ∀ (n' fuel p e : Nat) (acc : List Nat) (ec : Nat),
    n' < 2 ^ e →
    ec = p + mmrSize n' →
    popcount n' + 1 ≤ fuel →
    1 ≤ p →
    e ≤ 61 →
    p + (2 ^ (e + 1) - 1) < 2 ^ 63 →
    heightNat p = e →
    (∀ x, 1 ≤ x → x ≤ 2 ^ (e + 1) - 1 → heightNat (p + x) = heightNat x) →
    findPeaksOuter fuel ec p acc = acc ++ peakPosFrom p n' := by
  intro n'
  induction n' using Nat.strong_induction_on with
  | _ n' ih =>
    intro fuel p e acc ec hn hec hfuel hp he hbound hhp hpeel
    obtain ⟨f, rfl⟩ : ∃ k, fuel = k + 1 := ⟨fuel - 1, by omega⟩
    have hjump : bintreeJumpRightSibling p = p + (2 ^ (e + 1) - 1) := by
      rw [bintreeJumpRightSibling, getHeight_eq p hp (by omega), hhp,
        pow2_eq (e + 1) (by omega)]
    rcases Nat.eq_zero_or_pos n' with h0 | h1
    · subst h0
      have hec0 : ec = p := by simp [hec, mmrSize_zero]
      have hinner : findPeaksInner 70 ec (bintreeJumpRightSibling p) = 0 := by
        rw [hec0, hjump]
        exact findPeaksInner_zero e 70 p (by omega) hp hbound hpeel
      simp only [findPeaksOuter, hinner, if_pos rfl]
      simp [peakPosFrom_zero]
    · set eT := sz n' with heT
      have heT1 : 1 ≤ eT := sz_pos n' h1
      have heTe : eT ≤ e := (sz_le_iff n' e).2 hn
      have hd : eT + (e + 1 - eT) = e + 1 := by omega
      have hinner : findPeaksInner 70 ec (bintreeJumpRightSibling p) = p + (2 ^ eT - 1) := by
        rw [hjump, hec]
        have := findPeaksInner_descend (e + 1 - eT) 70 p eT n' h1 (by omega) hp
          (by rw [hd]; exact hbound) (by rw [hd]; exact hpeel) rfl
        rw [hd] at this
        exact this
      set P1 := p + (2 ^ eT - 1) with hP1
      have hP1ne : ¬(P1 = 0) := by
        have : 1 ≤ (2:Nat) ^ eT := Nat.one_le_two_pow
        omega
      simp only [findPeaksOuter, hinner, if_neg hP1ne]
      -- recurse on the remaining lower bits
      set r := n' - 2 ^ (eT - 1) with hr
      have hszr0 : eT - 1 + 1 = eT := by omega
      have hpow : (2:Nat) ^ eT = 2 * 2 ^ (eT - 1) := by
        conv_lhs => rw [← hszr0]
        rw [pow_succ]; ring
      have hlo : 2 ^ (eT - 1) ≤ n' := two_pow_sz_le n' h1
      have hhi : n' < 2 ^ eT := lt_two_pow_sz n'
      have hrlt : r < 2 ^ (eT - 1) := by omega
      have hdecomp : n' = 2 ^ (eT - 1) + r := by omega
      have hsize : mmrSize n' = (2 ^ (eT - 1 + 1) - 1) + mmrSize r := by
        rw [hdecomp]
        exact mmrSize_high_bit (eT - 1) r hrlt
      have hszr : eT - 1 + 1 = eT := by omega
      have hpcr : popcount n' = popcount r + 1 := by
        have := popcount_high_bit (eT - 1) r hrlt
        rw [← hdecomp] at this
        omega
      have hpeelP1 : ∀ x, 1 ≤ x → x ≤ 2 ^ (eT - 1 + 1) - 1 → heightNat (P1 + x) = heightNat x := by
        intro x hx1 hx2
        rw [hszr] at hx2
        have hy1 : 1 ≤ 2 ^ eT - 1 + x := by omega
        have hy2 : 2 ^ eT - 1 + x ≤ 2 ^ (e + 1) - 1 := by
          have h1e : (2:Nat) ^ (eT + 1) ≤ 2 ^ (e + 1) := Nat.pow_le_pow_right (by omega) (by omega)
          have h2e : (2:Nat) ^ (eT + 1) = 2 * 2 ^ eT := by rw [pow_succ]; ring
          omega
        have := hpeel (2 ^ eT - 1 + x) hy1 hy2
        rw [show p + (2 ^ eT - 1 + x) = P1 + x by omega] at this
        rw [this]
        exact heightNat_peel eT x hx1 hx2
      have hhP1 : heightNat P1 = eT - 1 := by
        have := hpeel (2 ^ eT - 1) (by have : 1 ≤ (2:Nat) ^ eT := Nat.one_le_two_pow; omega)
          (by
            have h1e : (2:Nat) ^ (eT + 1) ≤ 2 ^ (e + 1) := Nat.pow_le_pow_right (by omega) (by omega)
            have h2e : (2:Nat) ^ (eT + 1) = 2 * 2 ^ eT := by rw [pow_succ]; ring
            omega)
        rw [this, show (2:Nat) ^ eT - 1 = 2 ^ (eT - 1 + 1) - 1 by rw [hszr]]
        exact heightNat_all_ones_value (eT - 1)
      have hrec := ih r (by omega) f P1 (eT - 1) (acc ++ [P1]) ec
        hrlt
        (by rw [hec, hsize]; omega)
        (by omega)
        (by omega)
        (by omega)
        (by
          have h1e : (2:Nat) ^ (eT - 1 + 1 + 1) ≤ 2 ^ (e + 1) := Nat.pow_le_pow_right (by omega) (by omega)
          have h2e : (2:Nat) ^ (eT - 1 + 1 + 1) = 2 * 2 ^ (eT - 1 + 1) := by rw [pow_succ]; ring
          have h3e : (2:Nat) ^ (eT - 1 + 1) = 2 ^ eT := by rw [hszr]
          omega)
        hhP1
        hpeelP1
      rw [hrec]
      rw [peakPosFrom_succ p n' h1, hszr]
      rw [show p + (2 ^ eT - 1) = P1 by rw [hP1]]
      simp [hr, hszr]

theorem findPeaks_mmrSize (n : Nat) (h1 : 1 ≤ n) (h2 : n < 2 ^ 61) :
    findPeaks (mmrSize n) = peakPosFrom 0 n := by
  set ec := mmrSize n with hec
  set a := sz n - 1 with ha
  have hszn : sz n = a + 1 := by have := sz_pos n h1; omega
  have ha60 : a ≤ 60 := by
    have : sz n ≤ 61 := (sz_le_iff n 61).2 h2
    omega
  have hlb : 2 ^ (a + 1) - 1 ≤ ec := by
    have := mmrSize_lb n h1
    rw [hszn] at this
    exact this
  have hub : ec < 2 ^ (a + 2) - 1 := by
    have := mmrSize_ub n h1
    rw [hszn] at this
    exact this
  have hp1 : 1 ≤ (2:Nat) ^ (a + 1) := Nat.one_le_two_pow
  have hecne : ¬(ec = 0) := by omega
  have hec62 : ec < 2 ^ (0 + 70) - 1 := by
    have hmono : (2:Nat) ^ (a + 2) ≤ 2 ^ 70 := Nat.pow_le_pow_right (by omega) (by omega)
    omega
  obtain ⟨K, hK1, hK2, hK3, hK4⟩ := findPeaksTop_spec 70 0 ec hec62 (by simp)
  have hKa : K = a + 2 := by
    by_contra hc
    rcases Nat.lt_or_ge K (a + 2) with hlt | hge
    · have : (2:Nat) ^ K ≤ 2 ^ (a + 1) := Nat.pow_le_pow_right (by omega) (by omega)
      omega
    · have hge3 : a + 3 ≤ K := by omega
      have : (2:Nat) ^ (a + 2) ≤ 2 ^ (K - 1) := Nat.pow_le_pow_right (by omega) (by omega)
      omega
  have htopval : findPeaksTop 70 ec 1 = 2 ^ (a + 2) := by
    have : (2:Nat) ^ 0 = 1 := by norm_num
    rw [← this, hK1, hKa]
  have hdiv : 2 ^ (a + 2) / 2 - 1 = 2 ^ (a + 1) - 1 := by
    have : (2:Nat) ^ (a + 2) = 2 * 2 ^ (a + 1) := by rw [pow_succ]; ring
    omega
  have htopne : ¬(2 ^ (a + 1) - 1 = 0) := by omega
  show (if ec = 0 then [] else
    let top := findPeaksTop 70 ec 1 / 2 - 1
    if top = 0 then [1] else findPeaksOuter 70 ec top [top]) = peakPosFrom 0 n
  rw [if_neg hecne]
  simp only [htopval, hdiv, if_neg htopne]
  have hlo : 2 ^ a ≤ n := two_pow_sz_le n h1
  have hhi : n < 2 ^ (a + 1) := by rw [← hszn]; exact lt_two_pow_sz n
  set r := n - 2 ^ a with hr
  have hrlt : r < 2 ^ a := by omega
  have hdecomp : n = 2 ^ a + r := by omega
  have houter := findPeaksOuter_spec r 70 (2 ^ (a + 1) - 1) a [2 ^ (a + 1) - 1] ec
    hrlt
    (by
      rw [hec]
      conv_lhs => rw [hdecomp]
      have := mmrSize_high_bit a r hrlt
      omega)
    (by
      have hpc := popcount_le_sz r
      have hsz : sz r ≤ a := (sz_le_iff r a).2 hrlt
      omega)
    (by omega)
    (by omega)
    (by
      have h4 : (2:Nat) ^ (a + 2) = 2 * 2 ^ (a + 1) := by rw [pow_succ]; ring
      have hmono : (2:Nat) ^ (a + 2) ≤ 2 ^ 62 := Nat.pow_le_pow_right (by omega) (by omega)
      have hm2 : (2:Nat) ^ 62 < 2 ^ 63 := by norm_num
      omega)
    (heightNat_all_ones_value a)
    (fun x hx1 hx2 => heightNat_peel (a + 1) x hx1 hx2)
  rw [houter]
  rw [peakPosFrom_succ 0 n h1]
  rw [hszn]
  simp only [Nat.add_sub_cancel, Nat.zero_add]
  rfl

theorem trailingZeroBitsAux_zero (fuel : Nat) : trailingZeroBitsAux fuel 0 = 0 := by
  cases fuel <;> simp [trailingZeroBitsAux]

theorem trailingZeroBitsAux_congr : ∀ f g n : Nat, n ≤ f → n ≤ g →
    trailingZeroBitsAux f n = trailingZeroBitsAux g n := by
  intro f
  induction f with
  | zero =>
      intro g n hf _
      have h0 : n = 0 := by omega
      subst h0
      simp [trailingZeroBitsAux_zero]
  | succ f ih =>
      intro g n hf hg
      rcases Nat.eq_zero_or_pos n with h0 | h1
      · subst h0; simp [trailingZeroBitsAux_zero]
      · obtain ⟨g', rfl⟩ : ∃ k, g = k + 1 := ⟨g - 1, by omega⟩
        have hne : n ≠ 0 := by omega
        by_cases hm : n % 2 = 1
        · simp [trailingZeroBitsAux, hne, hm]
        · have hhalf : n / 2 < n := Nat.div_lt_self h1 (by omega)
          simp only [trailingZeroBitsAux, if_neg hne, if_neg hm]
          rw [ih g' (n / 2) (by omega) (by omega)]

theorem trailingZeroBits_odd (n : Nat) (h : n % 2 = 1) : trailingZeroBits n = 0 := by
  obtain ⟨m, rfl⟩ : ∃ k, n = k + 1 := ⟨n - 1, by omega⟩
  show trailingZeroBitsAux (m + 1) (m + 1) = 0
  simp [trailingZeroBitsAux, h]

theorem trailingZeroBits_even (n : Nat) (h1 : 1 ≤ n) (h2 : n % 2 = 0) :
    trailingZeroBits n = trailingZeroBits (n / 2) + 1 := by
  obtain ⟨m, rfl⟩ : ∃ k, n = k + 1 := ⟨n - 1, by omega⟩
  show trailingZeroBitsAux (m + 1) (m + 1) = _
  have hhalf : (m + 1) / 2 < m + 1 := Nat.div_lt_self (by omega) (by omega)
  simp only [trailingZeroBitsAux, if_neg (show ¬(m + 1 = 0) by omega), if_neg (by omega : ¬(m + 1) % 2 = 1)]
  rw [trailingZeroBitsAux_congr m ((m + 1) / 2) ((m + 1) / 2) (by omega) le_rfl]
  rfl

theorem two_pow_trailingZeroBits_dvd : ∀ n : Nat, 2 ^ trailingZeroBits n ∣ n := by
  intro n
  induction n using Nat.strong_induction_on with
  | _ n ih =>
    rcases Nat.eq_zero_or_pos n with h0 | h1
    · subst h0; simp
    · by_cases hm : n % 2 = 1
      · rw [trailingZeroBits_odd n hm]; simp
      · rw [trailingZeroBits_even n h1 (by omega)]
        have := ih (n / 2) (Nat.div_lt_self h1 (by omega))
        obtain ⟨q, hq⟩ := this
        refine ⟨q, ?_⟩
        rw [pow_succ]
        calc n = 2 * (n / 2) := by omega
        _ = 2 * (2 ^ trailingZeroBits (n / 2) * q) := by rw [← hq]
        _ = 2 ^ trailingZeroBits (n / 2) * 2 * q := by ring

theorem trailingZeroBits_high_bit : ∀ a r : Nat, 1 ≤ r → r < 2 ^ a →
    trailingZeroBits (2 ^ a + r) = trailingZeroBits r := by
  intro a
  induction a with
  | zero =>
      intro r h1 h2
      omega
  | succ a ih =>
      intro r h1 h2
      have hpow : (2:Nat) ^ (a + 1) = 2 * 2 ^ a := by rw [pow_succ]; ring
      by_cases hm : r % 2 = 1
      · rw [trailingZeroBits_odd r hm, trailingZeroBits_odd _ (by omega)]
      · have hr2 : 2 ≤ r := by omega
        have hmod : (2 ^ (a + 1) + r) % 2 = 0 := by omega
        have hdiv : (2 ^ (a + 1) + r) / 2 = 2 ^ a + r / 2 := by omega
        rw [trailingZeroBits_even _ (by omega) hmod, hdiv,
          ih (r / 2) (by omega) (by omega), ← trailingZeroBits_even r (by omega) (by omega)]

theorem le_sub_pow_of_dvd (m l a : Nat) (hdvd : 2 ^ l ∣ m) (h1 : 1 ≤ m) (h2 : m < 2 ^ a) :
    m ≤ 2 ^ a - 2 ^ l := by
  obtain ⟨q, hq⟩ := hdvd
  have hq1 : 1 ≤ q := by
    rcases Nat.eq_zero_or_pos q with h0 | h
    · subst h0; omega
    · exact h
  have hla : l < a := by
    have hpl : (2:Nat) ^ l ≤ m := by
      calc (2:Nat) ^ l = 2 ^ l * 1 := by ring
      _ ≤ 2 ^ l * q := by exact Nat.mul_le_mul_left _ hq1
      _ = m := hq.symm
    by_contra hc
    have : (2:Nat) ^ a ≤ 2 ^ l := Nat.pow_le_pow_right (by omega) (by omega)
    omega
  have hsplit : (2:Nat) ^ a = 2 ^ l * 2 ^ (a - l) := by
    rw [← pow_add]
    congr 1
    omega
  have hqlt : q < 2 ^ (a - l) := by
    by_contra hc
    push_neg at hc
    have : 2 ^ l * 2 ^ (a - l) ≤ 2 ^ l * q := Nat.mul_le_mul_left _ hc
    omega
  have : q ≤ 2 ^ (a - l) - 1 := by omega
  calc m = 2 ^ l * q := hq
  _ ≤ 2 ^ l * (2 ^ (a - l) - 1) := Nat.mul_le_mul_left _ this
  _ = 2 ^ l * 2 ^ (a - l) - 2 ^ l := by
      rw [Nat.mul_sub_one]
  _ = 2 ^ a - 2 ^ l := by rw [← hsplit]

theorem trailingZeroBits_two_pow : ∀ a : Nat, trailingZeroBits (2 ^ a) = a := by
  intro a
  induction a with
  | zero => exact trailingZeroBits_odd 1 (by norm_num)
  | succ a iha =>
      have hpow : (2:Nat) ^ (a + 1) = 2 * 2 ^ a := by rw [pow_succ]; ring
      have h1le : 1 ≤ (2:Nat) ^ a := Nat.one_le_two_pow
      rw [trailingZeroBits_even _ (by omega) (by omega),
        (by omega : 2 ^ (a + 1) / 2 = 2 ^ a), iha]

theorem popcount_split : ∀ n1 n2 : Nat, 1 ≤ n1 → n2 ≤ 2 ^ trailingZeroBits n1 - 1 →
    popcount (n1 + n2) = popcount n1 + popcount n2 := by
  intro n1
  induction n1 using Nat.strong_induction_on with
  | _ n1 ih =>
    intro n2 h1 h2
    set a := sz n1 - 1 with ha
    have hszn : sz n1 = a + 1 := by have := sz_pos n1 h1; omega
    have hlo : 2 ^ a ≤ n1 := two_pow_sz_le n1 h1
    have hhi : n1 < 2 ^ (a + 1) := by rw [← hszn]; exact lt_two_pow_sz n1
    set r1 := n1 - 2 ^ a with hr1
    have hdecomp : n1 = 2 ^ a + r1 := by omega
    have hdvd := two_pow_trailingZeroBits_dvd n1
    set l := trailingZeroBits n1 with hl
    have hplm : (2:Nat) ^ l ≤ n1 := Nat.le_of_dvd (by omega) hdvd
    have hla : l ≤ a := by
      by_contra hc
      have : (2:Nat) ^ (a + 1) ≤ 2 ^ l := Nat.pow_le_pow_right (by omega) (by omega)
      omega
    rcases Nat.eq_zero_or_pos r1 with hr0 | hrpos
    · -- n1 = 2 ^ a, and l = a
      have hn1 : n1 = 2 ^ a := by omega
      have hleq : l = a := by
        rw [hl, hn1, trailingZeroBits_two_pow]
      rw [hleq] at h2
      have hn2 : n2 < 2 ^ a := by
        have := Nat.one_le_two_pow (n := a)
        omega
      rw [hn1, popcount_high_bit a n2 hn2]
      have hpa : popcount (2 ^ a) = 1 := by
        have := popcount_high_bit a 0 (by positivity)
        simpa [popcount_zero] using this
      omega
    · have htzr : trailingZeroBits r1 = l := by
        rw [hl, hdecomp]
        exact (trailingZeroBits_high_bit a r1 hrpos (by omega)).symm ▸
          (trailingZeroBits_high_bit a r1 hrpos (by omega))
      have hsum : r1 + n2 < 2 ^ a := by
        have hdvdr : 2 ^ l ∣ r1 := by
          rw [← htzr]
          exact two_pow_trailingZeroBits_dvd r1
        have := le_sub_pow_of_dvd r1 l a hdvdr hrpos (by omega)
        have h2l : 1 ≤ (2:Nat) ^ l := Nat.one_le_two_pow
        omega
      have hstep : n1 + n2 = 2 ^ a + (r1 + n2) := by omega
      rw [hstep, popcount_high_bit a (r1 + n2) hsum,
        ih r1 (by omega) n2 hrpos (by rw [htzr]; exact h2)]
      have hpc1 : popcount n1 = popcount r1 + 1 := by
        have := popcount_high_bit a r1 (by omega)
        rw [← hdecomp] at this
        omega
      omega

theorem mmrSize_split (n1 n2 : Nat) (h1 : 1 ≤ n1) (h2 : n2 ≤ 2 ^ trailingZeroBits n1 - 1) :
    mmrSize (n1 + n2) = mmrSize n1 + mmrSize n2 := by
  have hpc := popcount_split n1 n2 h1 h2
  have ha := popcount_le n1
  have hb := popcount_le n2
  show 2 * (n1 + n2) - popcount (n1 + n2) = (2 * n1 - popcount n1) + (2 * n2 - popcount n2)
  omega

theorem peakPosFrom_split : ∀ n1 n2 off : Nat, 1 ≤ n1 → n2 ≤ 2 ^ trailingZeroBits n1 - 1 →
    peakPosFrom off (n1 + n2) = peakPosFrom off n1 ++ peakPosFrom (off + mmrSize n1) n2 := by
  intro n1
  induction n1 using Nat.strong_induction_on with
  | _ n1 ih =>
    intro n2 off h1 h2
    set a := sz n1 - 1 with ha
    have hszn : sz n1 = a + 1 := by have := sz_pos n1 h1; omega
    have hlo : 2 ^ a ≤ n1 := two_pow_sz_le n1 h1
    have hhi : n1 < 2 ^ (a + 1) := by rw [← hszn]; exact lt_two_pow_sz n1
    set r1 := n1 - 2 ^ a with hr1
    have hdecomp : n1 = 2 ^ a + r1 := by omega
    have hdvd := two_pow_trailingZeroBits_dvd n1
    set l := trailingZeroBits n1 with hl
    have hple : (2:Nat) ^ l ≤ n1 := Nat.le_of_dvd (by omega) hdvd
    have hla : l ≤ a := by
      by_contra hc
      have : (2:Nat) ^ (a + 1) ≤ 2 ^ l := Nat.pow_le_pow_right (by omega) (by omega)
      omega
    have hn1ub : n1 ≤ 2 ^ (a + 1) - 2 ^ l := le_sub_pow_of_dvd n1 l (a + 1) hdvd h1 hhi
    have h2l : 1 ≤ (2:Nat) ^ l := Nat.one_le_two_pow
    have hll : (2:Nat) ^ l ≤ 2 ^ a := Nat.pow_le_pow_right (by omega) hla
    have hpow : (2:Nat) ^ (a + 1) = 2 * 2 ^ a := by rw [pow_succ]; ring
    have hsumhi : n1 + n2 < 2 ^ (a + 1) := by omega
    have hsumlo : 2 ^ a ≤ n1 + n2 := by omega
    have hszsum : sz (n1 + n2) = a + 1 := sz_high_bit (n1 + n2) a hsumlo hsumhi
    have hsum1 : 1 ≤ n1 + n2 := by omega
    rw [peakPosFrom_succ off (n1 + n2) hsum1, hszsum]
    rw [peakPosFrom_succ off n1 h1, hszn]
    simp only [Nat.add_sub_cancel]
    have harg : n1 + n2 - 2 ^ a = r1 + n2 := by omega
    rw [harg]
    rcases Nat.eq_zero_or_pos r1 with hr0 | hrpos
    · -- n1 = 2 ^ a exactly: its peak list is a singleton
      have hn1 : n1 = 2 ^ a := by omega
      have hr1z : n1 - 2 ^ a = 0 := by omega
      rw [hr1z, peakPosFrom_zero]
      have hms : off + mmrSize n1 = off + (2 ^ (a + 1) - 1) := by
        rw [hn1, mmrSize_pow]
      rw [hms]
      have hrn : r1 + n2 = n2 := by omega
      rw [hrn]
      simp
    · have htzr : trailingZeroBits r1 = l := by
        have := trailingZeroBits_high_bit a r1 hrpos (by omega)
        rw [← hdecomp] at this
        omega
      have hrec := ih r1 (by omega) n2 (off + (2 ^ (a + 1) - 1)) hrpos (by rw [htzr]; exact h2)
      rw [hr1] at hrec ⊢
      rw [hrec]
      have hms : off + mmrSize n1 = off + (2 ^ (a + 1) - 1) + mmrSize (n1 - 2 ^ a) := by
        have h5 := mmrSize_high_bit a r1 (by omega)
        rw [← hdecomp] at h5
        rw [← hr1, h5]
        omega
      rw [hms]
      simp

theorem trailingOnes_decomp : ∀ n : Nat, ∃ hi, n = hi + (2 ^ trailingOnes n - 1) ∧
    (hi = 0 ∨ (1 ≤ hi ∧ trailingOnes n + 1 ≤ trailingZeroBits hi)) := by
  intro n
  induction n using Nat.strong_induction_on with
  | _ n ih =>
    rcases Nat.eq_zero_or_pos n with h0 | h1
    · subst h0
      exact ⟨0, by simp [trailingOnes_even 0 rfl], Or.inl rfl⟩
    · by_cases hm : n % 2 = 1
      · obtain ⟨hi2, hhi2, hcond⟩ := ih (n / 2) (Nat.div_lt_self h1 (by omega))
        set t2 := trailingOnes (n / 2) with ht2
        have ht : trailingOnes n = t2 + 1 := trailingOnes_odd n hm
        have hpt : 1 ≤ (2:Nat) ^ t2 := Nat.one_le_two_pow
        have hpow : (2:Nat) ^ (t2 + 1) = 2 * 2 ^ t2 := by rw [pow_succ]; ring
        refine ⟨2 * hi2, by rw [ht]; omega, ?_⟩
        rcases hcond with hz | ⟨hp, htz⟩
        · exact Or.inl (by omega)
        · refine Or.inr ⟨by omega, ?_⟩
          have : trailingZeroBits (2 * hi2) = trailingZeroBits hi2 + 1 := by
            rw [trailingZeroBits_even (2 * hi2) (by omega) (by omega)]
            congr 2
            omega
          rw [ht, this]
          omega
      · have ht : trailingOnes n = 0 := trailingOnes_even n (by omega)
        refine ⟨n, by rw [ht]; omega, Or.inr ⟨h1, ?_⟩⟩
        rw [ht, trailingZeroBits_even n h1 (by omega)]
        omega

theorem ptAux_congr : ∀ f g : Nat, ∀ vs : List F, vs.length ≤ f → vs.length ≤ g →
    ptAux f vs = ptAux g vs := by
  intro f
  induction f with
  | zero =>
      intro g vs hf _
      have h0 : vs = [] := by
        cases vs with
        | nil => rfl
        | cons x t => simp at hf
      subst h0
      cases g <;> simp [ptAux]
  | succ f ih =>
      intro g vs hf hg
      by_cases hlen : vs.length ≤ 1
      · cases g with
        | zero =>
            have h0 : vs = [] := by
              cases vs with
              | nil => rfl
              | cons x t => simp at hg
            subst h0
            simp [ptAux]
        | succ g' => simp [ptAux, if_pos hlen]
      · have h2 : 2 ≤ vs.length := by omega
        obtain ⟨g', rfl⟩ : ∃ k, g = k + 1 := ⟨g - 1, by omega⟩
        have htake : (vs.take (vs.length / 2)).length = vs.length / 2 := by
          simp [List.length_take]
          omega
        have hdrop : (vs.drop (vs.length / 2)).length = vs.length - vs.length / 2 := by
          simp [List.length_drop]
        simp only [ptAux, if_neg hlen]
        rw [ih g' (vs.take (vs.length / 2)) (by omega) (by omega),
          ih g' (vs.drop (vs.length / 2)) (by omega) (by omega)]

theorem pt_one (v : F) : pt [v] = v := rfl

theorem pt_two_pow_append (e : Nat) (xs ys : List F)
    (hx : xs.length = 2 ^ e) (hy : ys.length = 2 ^ e) :
    pt (xs ++ ys) = F.H (pt xs) (pt ys) := by
  have hlen : (xs ++ ys).length = 2 ^ (e + 1) := by
    simp [hx, hy, pow_succ]
    ring
  have hpe : 1 ≤ (2:Nat) ^ e := Nat.one_le_two_pow
  have hpow : (2:Nat) ^ (e + 1) = 2 * 2 ^ e := by rw [pow_succ]; ring
  have h2 : ¬((xs ++ ys).length ≤ 1) := by omega
  have hhalf : (xs ++ ys).length / 2 = 2 ^ e := by omega
  have htake : (xs ++ ys).take (2 ^ e) = xs := by
    rw [← hx, List.take_append_of_le_length le_rfl, List.take_length]
  have hdrop : (xs ++ ys).drop (2 ^ e) = ys := by
    rw [← hx, List.drop_append_of_le_length le_rfl, List.drop_length, List.nil_append]
  show ptAux (xs ++ ys).length (xs ++ ys) = _
  obtain ⟨m, hm⟩ : ∃ k, (xs ++ ys).length = k + 1 := ⟨(xs ++ ys).length - 1, by omega⟩
  rw [hm]
  simp only [ptAux]
  rw [if_neg (by omega : ¬(xs ++ ys).length ≤ 1)]
  rw [hhalf, htake, hdrop]
  rw [ptAux_congr m xs.length xs (by omega) le_rfl,
    ptAux_congr m ys.length ys (by omega) le_rfl]
  rfl

theorem peakHashAux_congr : ∀ f g : Nat, ∀ vs : List F, vs.length ≤ f → vs.length ≤ g →
    peakHashAux f vs = peakHashAux g vs := by
  intro f
  induction f with
  | zero =>
      intro g vs hf _
      have h0 : vs.length = 0 := by omega
      cases g with
      | zero => rfl
      | succ g' => simp [peakHashAux, h0]
  | succ f ih =>
      intro g vs hf hg
      rcases Nat.eq_zero_or_pos vs.length with h0 | h1
      · cases g with
        | zero => simp [peakHashAux, h0]
        | succ g' => simp [peakHashAux, h0]
      · obtain ⟨g', rfl⟩ : ∃ k, g = k + 1 := ⟨g - 1, by omega⟩
        have hp : 1 ≤ 2 ^ (sz vs.length - 1) := Nat.one_le_two_pow
        have hlo : 2 ^ (sz vs.length - 1) ≤ vs.length := two_pow_sz_le _ h1
        have hdrop : (vs.drop (2 ^ (sz vs.length - 1))).length = vs.length - 2 ^ (sz vs.length - 1) := by
          simp [List.length_drop]
        simp only [peakHashAux, if_neg (by omega : ¬vs.length = 0)]
        congr 1
        exact ih g' (vs.drop (2 ^ (sz vs.length - 1))) (by omega) (by omega)

theorem peakHashList_nil : peakHashList [] = [] := rfl

theorem peakHashList_succ (vs : List F) (h : 1 ≤ vs.length) :
    peakHashList vs =
      pt (vs.take (2 ^ (sz vs.length - 1))) ::
        peakHashList (vs.drop (2 ^ (sz vs.length - 1))) := by
  obtain ⟨m, hm⟩ : ∃ k, vs.length = k + 1 := ⟨vs.length - 1, by omega⟩
  show peakHashAux vs.length vs = _
  rw [hm]
  simp only [peakHashAux, if_neg (by rw [hm] at h ⊢; omega : ¬vs.length = 0)]
  have hp : 1 ≤ 2 ^ (sz vs.length - 1) := Nat.one_le_two_pow
  have hlo : 2 ^ (sz vs.length - 1) ≤ vs.length := two_pow_sz_le _ h
  have hdrop : (vs.drop (2 ^ (sz vs.length - 1))).length = vs.length - 2 ^ (sz vs.length - 1) := by
    simp [List.length_drop]
  have hrw : peakHashList (vs.drop (2 ^ (sz vs.length - 1))) =
      peakHashAux m (vs.drop (2 ^ (sz vs.length - 1))) := by
    show peakHashAux _ _ = _
    exact peakHashAux_congr _ m _ le_rfl (by omega)
  rw [← hm, hrw]

theorem peakHashList_pow (k : Nat) (vs : List F) (h : vs.length = 2 ^ k) :
    peakHashList vs = [pt vs] := by
  have h1 : 1 ≤ vs.length := by
    have : 1 ≤ (2:Nat) ^ k := Nat.one_le_two_pow
    omega
  rw [peakHashList_succ vs h1, h, sz_two_pow]
  simp only [Nat.add_sub_cancel]
  rw [← h, List.take_length, List.drop_length, peakHashList_nil]

theorem peakHashList_length : ∀ n : Nat, ∀ vs : List F, vs.length = n →
    (peakHashList vs).length = popcount n := by
  intro n
  induction n using Nat.strong_induction_on with
  | _ n ih =>
    intro vs hn
    rcases Nat.eq_zero_or_pos n with h0 | h1
    · subst h0
      have : vs = [] := by cases vs with | nil => rfl | cons x t => simp at hn
      subst this
      simp [peakHashList_nil, popcount_zero]
    · rw [peakHashList_succ vs (by omega)]
      set a := sz n - 1 with ha
      have h3 : sz n = a + 1 := by have := sz_pos _ h1; omega
      have hlo : 2 ^ a ≤ n := two_pow_sz_le _ h1
      have hhi : n < 2 ^ (a + 1) := by rw [← h3]; exact lt_two_pow_sz _
      have hp : 1 ≤ (2:Nat) ^ a := Nat.one_le_two_pow
      have hdlen : (vs.drop (2 ^ (sz vs.length - 1))).length = n - 2 ^ a := by
        simp [List.length_drop, hn]
      simp only [List.length_cons]
      rw [ih (n - 2 ^ a) (by omega) _ (by rw [hdlen])]
      have h4 := popcount_high_bit a (n - 2 ^ a) (by omega)
      rw [show 2 ^ a + (n - 2 ^ a) = n by omega] at h4
      omega

theorem peakHashList_len (vs : List F) : (peakHashList vs).length = popcount vs.length :=
  peakHashList_length vs.length vs rfl

theorem peakHashList_split : ∀ n : Nat, ∀ xs ys : List F, xs.length = n → 1 ≤ n →
    ys.length ≤ 2 ^ trailingZeroBits n - 1 →
    peakHashList (xs ++ ys) = peakHashList xs ++ peakHashList ys := by
  intro n
  induction n using Nat.strong_induction_on with
  | _ n ih =>
    intro xs ys hxs h1 h2
    set a := sz n - 1 with ha
    have hszn : sz n = a + 1 := by have := sz_pos n h1; omega
    have hlo : 2 ^ a ≤ n := two_pow_sz_le n h1
    have hhi : n < 2 ^ (a + 1) := by rw [← hszn]; exact lt_two_pow_sz n
    set r1 := n - 2 ^ a with hr1
    have hdvd := two_pow_trailingZeroBits_dvd n
    set l := trailingZeroBits n with hl
    have hplm : (2:Nat) ^ l ≤ n := Nat.le_of_dvd (by omega) hdvd
    have hla : l ≤ a := by
      by_contra hc
      have : (2:Nat) ^ (a + 1) ≤ 2 ^ l := Nat.pow_le_pow_right (by omega) (by omega)
      omega
    have hn1ub : n ≤ 2 ^ (a + 1) - 2 ^ l := le_sub_pow_of_dvd n l (a + 1) hdvd h1 hhi
    have h2l : 1 ≤ (2:Nat) ^ l := Nat.one_le_two_pow
    have hll : (2:Nat) ^ l ≤ 2 ^ a := Nat.pow_le_pow_right (by omega) hla
    have hpow : (2:Nat) ^ (a + 1) = 2 * 2 ^ a := by rw [pow_succ]; ring
    have hNlen : (xs ++ ys).length = n + ys.length := by simp [hxs]
    have hsumhi : n + ys.length < 2 ^ (a + 1) := by omega
    have hszsum : sz (xs ++ ys).length = a + 1 := by
      rw [hNlen]
      exact sz_high_bit _ a (by omega) hsumhi
    rw [peakHashList_succ (xs ++ ys) (by rw [hNlen]; omega), hszsum]
    rw [peakHashList_succ xs (by rw [hxs]; omega), hxs, hszn]
    simp only [Nat.add_sub_cancel]
    have htake : (xs ++ ys).take (2 ^ a) = xs.take (2 ^ a) := by
      apply List.take_append_of_le_length
      rw [hxs]; exact hlo
    have hdrop : (xs ++ ys).drop (2 ^ a) = xs.drop (2 ^ a) ++ ys := by
      apply List.drop_append_of_le_length
      rw [hxs]; exact hlo
    rw [htake, hdrop]
    have hxdlen : (xs.drop (2 ^ a)).length = r1 := by simp [List.length_drop, hxs]
    rcases Nat.eq_zero_or_pos r1 with hr0 | hrpos
    · have hxd : xs.drop (2 ^ a) = [] := by
        cases hh : xs.drop (2 ^ a) with
        | nil => rfl
        | cons z t => rw [hh] at hxdlen; simp at hxdlen; omega
      rw [hxd, peakHashList_nil, List.nil_append]
      simp
    · have htzr : trailingZeroBits r1 = l := by
        have := trailingZeroBits_high_bit a r1 hrpos (by omega)
        rw [show 2 ^ a + r1 = n by omega] at this
        omega
      rw [ih r1 (by omega) (xs.drop (2 ^ a)) ys hxdlen hrpos (by rw [htzr]; exact h2)]
      simp

theorem getD_append_left {α : Type} (l1 l2 : List α) (j : Nat) (d : α)
    (h : j < l1.length) : (l1 ++ l2).getD j d = l1.getD j d := by
  simp [List.getD, List.getElem?_append, h]

theorem getD_append_right {α : Type} (l1 l2 : List α) (j : Nat) (d : α) :
    (l1 ++ l2).getD (l1.length + j) d = l2.getD j d := by
  simp [List.getD, List.getElem?_append, Nat.add_sub_cancel_left]

theorem take_succ_getD {α : Type} (l : List α) (j : Nat) (d : α)
    (h : j < l.length) : l.take (j + 1) = l.take j ++ [l.getD j d] := by
  rw [List.take_succ]
  congr 1
  have h1 : l[j]? = some l[j] := List.getElem?_eq_getElem h
  rw [h1]
  have h2 : l.getD j d = l[j] := List.getD_eq_getElem l d h
  rw [h2]
  rfl

theorem peakPosFrom_le : ∀ n off q : Nat, q ∈ peakPosFrom off n → off < q ∧ q ≤ off + mmrSize n := by
  intro n
  induction n using Nat.strong_induction_on with
  | _ n ih =>
    intro off q hq
    rcases Nat.eq_zero_or_pos n with h0 | h1
    · subst h0; simp [peakPosFrom_zero] at hq
    · rw [peakPosFrom_succ off n h1] at hq
      set a := sz n - 1 with ha
      have hszn : sz n = a + 1 := by have := sz_pos n h1; omega
      have hlo : 2 ^ a ≤ n := two_pow_sz_le n h1
      have hhi : n < 2 ^ (a + 1) := by rw [← hszn]; exact lt_two_pow_sz n
      have hp : 1 ≤ (2:Nat) ^ (a + 1) := Nat.one_le_two_pow
      have hsize : mmrSize n = (2 ^ (a + 1) - 1) + mmrSize (n - 2 ^ a) := by
        have := mmrSize_high_bit a (n - 2 ^ a) (by omega)
        rw [show 2 ^ a + (n - 2 ^ a) = n by omega] at this
        exact this
      rcases List.mem_cons.1 hq with heq | hmem
      · subst heq
        omega
      · have := ih (n - 2 ^ a) (by omega) _ q hmem
        omega

theorem findPeaks_peakPos (n : Nat) (h : n < 2 ^ 61) :
    findPeaks (mmrSize n) = peakPosFrom 0 n := by
  rcases Nat.eq_zero_or_pos n with h0 | h1
  · subst h0
    rfl
  · exact findPeaks_mmrSize n h1 h

theorem peakPosFrom_step (n : Nat) :
    peakPosFrom 0 (n + 1) =
      (peakPosFrom 0 n).take (popcount n - trailingOnes n) ++ [mmrSize (n + 1)] := by
  obtain ⟨hi, hdec, hcond⟩ := trailingOnes_decomp n
  set t := trailingOnes n with ht
  have hpt : 1 ≤ (2:Nat) ^ t := Nat.one_le_two_pow
  rcases hcond with hz | ⟨hp1, htz⟩
  · -- n is all ones: n = 2 ^ t - 1
    subst hz
    simp only [Nat.zero_add] at hdec
    have hpc : popcount n = t := by rw [hdec, popcount_two_pow_sub_one]
    have hn1 : n + 1 = 2 ^ t := by omega
    rw [hn1, hpc]
    simp only [ht, Nat.sub_self, List.take_zero, List.nil_append]
    rw [peakPosFrom_succ 0 (2 ^ t) (by omega), sz_two_pow]
    simp only [Nat.add_sub_cancel, Nat.sub_self, peakPosFrom_zero, Nat.zero_add]
    rw [← hn1, show mmrSize (n + 1) = 2 ^ (t + 1) - 1 by rw [hn1, mmrSize_pow]]
  · have hpt1 : (2:Nat) ^ (t + 1) ≤ 2 ^ trailingZeroBits hi := Nat.pow_le_pow_right (by omega) htz
    have hpow : (2:Nat) ^ (t + 1) = 2 * 2 ^ t := by rw [pow_succ]; ring
    have hsplit1 : peakPosFrom 0 n = peakPosFrom 0 hi ++ peakPosFrom (mmrSize hi) (2 ^ t - 1) := by
      conv_lhs => rw [hdec]
      simpa using peakPosFrom_split hi (2 ^ t - 1) 0 hp1 (by omega)
    have hsplit2 : peakPosFrom 0 (n + 1) = peakPosFrom 0 hi ++ peakPosFrom (mmrSize hi) (2 ^ t) := by
      have heq : n + 1 = hi + 2 ^ t := by omega
      rw [heq]
      simpa using peakPosFrom_split hi (2 ^ t) 0 hp1 (by omega)
    have hsingle : peakPosFrom (mmrSize hi) (2 ^ t) = [mmrSize (n + 1)] := by
      rw [peakPosFrom_succ (mmrSize hi) (2 ^ t) (by omega), sz_two_pow]
      simp only [Nat.add_sub_cancel, Nat.sub_self, peakPosFrom_zero]
      have heq : n + 1 = hi + 2 ^ t := by omega
      rw [heq, mmrSize_split hi (2 ^ t) hp1 (by omega), mmrSize_pow]
    have hpc : popcount n = popcount hi + t := by
      conv_lhs => rw [hdec]
      rw [popcount_split hi (2 ^ t - 1) hp1 (by omega), popcount_two_pow_sub_one]
    have hlen : (peakPosFrom 0 hi).length = popcount hi := peakPosFrom_length hi 0
    rw [hsplit2, hsingle, hsplit1]
    have htake : (peakPosFrom 0 hi ++ peakPosFrom (mmrSize hi) (2 ^ t - 1)).take (popcount n - t) =
        peakPosFrom 0 hi := by
      rw [show popcount n - t = (peakPosFrom 0 hi).length by omega]
      exact List.take_left _ _
    rw [htake]

theorem peakHashList_step (vs : List F) (v : F) :
    peakHashList (vs ++ [v]) =
      (peakHashList vs).take (popcount vs.length - trailingOnes vs.length) ++
        [pt (vs.drop (vs.length - (2 ^ trailingOnes vs.length - 1)) ++ [v])] := by
  obtain ⟨hi, hdec, hcond⟩ := trailingOnes_decomp vs.length
  set n := vs.length with hn
  set t := trailingOnes n with ht
  have hpt : 1 ≤ (2:Nat) ^ t := Nat.one_le_two_pow
  rcases hcond with hz | ⟨hp1, htz⟩
  · subst hz
    simp only [Nat.zero_add] at hdec
    have hpc : popcount n = t := by rw [hdec, popcount_two_pow_sub_one]
    have hlen1 : (vs ++ [v]).length = 2 ^ t := by simp [← hn]; omega
    rw [peakHashList_pow t (vs ++ [v]) hlen1, hpc]
    simp only [Nat.sub_self, List.take_zero, List.nil_append]
    have hd0 : n - (2 ^ t - 1) = 0 := by omega
    rw [hd0, List.drop_zero]
  · have hpt1 : (2:Nat) ^ (t + 1) ≤ 2 ^ trailingZeroBits hi := Nat.pow_le_pow_right (by omega) htz
    have hpow : (2:Nat) ^ (t + 1) = 2 * 2 ^ t := by rw [pow_succ]; ring
    set xs := vs.take hi with hxs
    set los := vs.drop hi with hlos
    have hvs : xs ++ los = vs := List.take_append_drop hi vs
    have hxlen : xs.length = hi := by rw [hxs]; simp [List.length_take]; omega
    have hllen : los.length = 2 ^ t - 1 := by rw [hlos]; simp [List.length_drop]; omega
    have hsplit1 : peakHashList vs = peakHashList xs ++ peakHashList los := by
      conv_lhs => rw [← hvs]
      exact peakHashList_split hi xs los hxlen hp1 (by omega)
    have hsplit2 : peakHashList (vs ++ [v]) = peakHashList xs ++ [pt (los ++ [v])] := by
      conv_lhs => rw [← hvs, List.append_assoc]
      rw [peakHashList_split hi xs (los ++ [v]) hxlen hp1 (by simp [hllen]; omega)]
      rw [peakHashList_pow t (los ++ [v]) (by simp [hllen]; omega)]
    have hpc : popcount n = popcount hi + t := by
      conv_lhs => rw [hdec]
      rw [popcount_split hi (2 ^ t - 1) hp1 (by omega), popcount_two_pow_sub_one]
    have hlen : (peakHashList xs).length = popcount hi := by
      rw [peakHashList_len, hxlen]
    rw [hsplit2, hsplit1]
    have htake : (peakHashList xs ++ peakHashList los).take (popcount n - t) = peakHashList xs := by
      rw [show popcount n - t = (peakHashList xs).length by omega]
      exact List.take_left _ _
    rw [htake]
    have hdrop : vs.drop (n - (2 ^ t - 1)) = los := by
      rw [show n - (2 ^ t - 1) = hi by omega]
    rw [hdrop]

theorem peakHashList_all_ones_getD : ∀ t : Nat, ∀ los : List F, los.length = 2 ^ t - 1 →
    ∀ k, k < t → (peakHashList los).getD (t - 1 - k) (F.fld 0) =
      pt ((los.drop (2 ^ t - 2 ^ (k + 1))).take (2 ^ k)) := by
  intro t
  induction t with
  | zero => intro los hlen k hk; omega
  | succ t ih =>
      intro los hlen k hk
      have hpt : 1 ≤ (2:Nat) ^ t := Nat.one_le_two_pow
      have hpow : (2:Nat) ^ (t + 1) = 2 * 2 ^ t := by rw [pow_succ]; ring
      have hlen1 : 1 ≤ los.length := by omega
      have hsz : sz los.length = t + 1 := by rw [hlen]; exact sz_two_pow_sub_one (t + 1)
      rw [peakHashList_succ los hlen1, hsz]
      simp only [Nat.add_sub_cancel]
      by_cases hkt : k = t
      · have hidx : t - k = 0 := by omega
        rw [hidx]
        simp only [List.getD_cons_zero]
        rw [hkt, Nat.sub_self, List.drop_zero]
      · have hklt : k < t := by omega
        have hidx : t - k = (t - 1 - k) + 1 := by omega
        rw [hidx]
        simp only [List.getD_cons_succ]
        have hdlen : (los.drop (2 ^ t)).length = 2 ^ t - 1 := by
          simp [List.length_drop, hlen]
          omega
        rw [ih (los.drop (2 ^ t)) hdlen k hklt]
        rw [List.drop_drop]
        rw [show 2 ^ t + (2 ^ t - 2 ^ (k + 1)) = 2 ^ (t + 1) - 2 ^ (k + 1) by
          have hp1 : (2:Nat) ^ (k + 1) ≤ 2 ^ t := Nat.pow_le_pow_right (by omega) (by omega)
          have hp2 : 1 ≤ (2:Nat) ^ k := Nat.one_le_two_pow
          omega]

theorem peakHashList_trailing_block (vs : List F) (k : Nat) (hk : k < trailingOnes vs.length) :
    (peakHashList vs).getD (popcount vs.length - 1 - k) (F.fld 0) =
      pt ((vs.drop (vs.length - (2 ^ (k + 1) - 1))).take (2 ^ k)) := by
  obtain ⟨hi, hdec, hcond⟩ := trailingOnes_decomp vs.length
  set n := vs.length with hn
  set t := trailingOnes n with ht
  have hpt : 1 ≤ (2:Nat) ^ t := Nat.one_le_two_pow
  have hk2 : 1 ≤ (2:Nat) ^ k := Nat.one_le_two_pow
  have hpk : (2:Nat) ^ (k + 1) ≤ 2 ^ t := Nat.pow_le_pow_right (by omega) (by omega)
  rcases hcond with hz | ⟨hp1, htz⟩
  · subst hz
    simp only [Nat.zero_add] at hdec
    have hpc : popcount n = t := by rw [hdec, popcount_two_pow_sub_one]
    rw [hpc]
    have hlenvs : vs.length = 2 ^ t - 1 := by rw [← hn]; exact hdec
    rw [peakHashList_all_ones_getD t vs hlenvs k hk]
    have harith : n - (2 ^ (k + 1) - 1) = 2 ^ t - 2 ^ (k + 1) := by omega
    rw [harith]
  · have hpt1 : (2:Nat) ^ (t + 1) ≤ 2 ^ trailingZeroBits hi := Nat.pow_le_pow_right (by omega) htz
    have hpow : (2:Nat) ^ (t + 1) = 2 * 2 ^ t := by rw [pow_succ]; ring
    set xs := vs.take hi with hxs
    set los := vs.drop hi with hlos
    have hvs : xs ++ los = vs := List.take_append_drop hi vs
    have hxlen : xs.length = hi := by rw [hxs]; simp [List.length_take]; omega
    have hllen : los.length = 2 ^ t - 1 := by rw [hlos]; simp [List.length_drop]; omega
    have hsplit1 : peakHashList vs = peakHashList xs ++ peakHashList los := by
      conv_lhs => rw [← hvs]
      exact peakHashList_split hi xs los hxlen hp1 (by omega)
    have hpc : popcount n = popcount hi + t := by
      conv_lhs => rw [hdec]
      rw [popcount_split hi (2 ^ t - 1) hp1 (by omega), popcount_two_pow_sub_one]
    have hlen : (peakHashList xs).length = popcount hi := by
      rw [peakHashList_len, hxlen]
    rw [hsplit1]
    have hidx : popcount n - 1 - k = (peakHashList xs).length + (t - 1 - k) := by omega
    rw [hidx, getD_append_right]
    rw [peakHashList_all_ones_getD t los hllen k hk]
    have hdrop : vs.drop (n - (2 ^ (k + 1) - 1)) = los.drop (2 ^ t - 2 ^ (k + 1)) := by
      conv_lhs => rw [← hvs]
      have harith : n - (2 ^ (k + 1) - 1) = xs.length + (2 ^ t - 2 ^ (k + 1)) := by omega
      rw [harith, ← List.drop_drop, List.drop_left]
    rw [hdrop]

theorem drop_append_single (vs : List F) (v : F) (i : Nat) (h : i ≤ vs.length) :
    (vs ++ [v]).drop i = vs.drop i ++ [v] :=
  List.drop_append_of_le_length h

theorem chain_step (vs : List F) (v : F) (k : Nat)
    (hlen : 2 ^ (k + 1) - 1 ≤ vs.length) :
    F.H (pt ((vs.drop (vs.length - (2 ^ (k + 1) - 1))).take (2 ^ k)))
        (pt ((vs ++ [v]).drop (vs.length + 1 - 2 ^ k))) =
      pt ((vs ++ [v]).drop (vs.length + 1 - 2 ^ (k + 1))) := by
  set n := vs.length with hn
  have hk2 : 1 ≤ (2:Nat) ^ k := Nat.one_le_two_pow
  have hpow : (2:Nat) ^ (k + 1) = 2 * 2 ^ k := by rw [pow_succ]; ring
  set A := (vs.drop (n - (2 ^ (k + 1) - 1))).take (2 ^ k) with hA
  set B := (vs ++ [v]).drop (n + 1 - 2 ^ k) with hB
  have hAlen : A.length = 2 ^ k := by
    rw [hA]
    simp [List.length_take, List.length_drop, ← hn]
    omega
  have hBlen : B.length = 2 ^ k := by
    rw [hB]
    simp [List.length_drop, ← hn]
    omega
  have hsplit : (vs ++ [v]).drop (n + 1 - 2 ^ (k + 1)) = A ++ B := by
    have hd1 : (vs ++ [v]).drop (n + 1 - 2 ^ (k + 1)) = vs.drop (n + 1 - 2 ^ (k + 1)) ++ [v] :=
      drop_append_single vs v _ (by omega)
    have hd2 : B = vs.drop (n + 1 - 2 ^ k) ++ [v] := drop_append_single vs v _ (by omega)
    have hsuffix : vs.drop (n + 1 - 2 ^ (k + 1)) = A ++ vs.drop (n + 1 - 2 ^ k) := by
      have htd := List.take_append_drop (2 ^ k) (vs.drop (n + 1 - 2 ^ (k + 1)))
      have hdd : (vs.drop (n + 1 - 2 ^ (k + 1))).drop (2 ^ k) = vs.drop (n + 1 - 2 ^ k) := by
        rw [List.drop_drop]
        congr 1
        omega
      have hAeq : (vs.drop (n + 1 - 2 ^ (k + 1))).take (2 ^ k) = A := by
        rw [hA]
        congr 2
        omega
      rw [← htd, hdd, hAeq]
    rw [hd1, hsuffix, hd2, List.append_assoc]
  rw [hsplit]
  exact (pt_two_pow_append k A B hAlen hBlen).symm

theorem take_getLastD (L : List F) (j : Nat) (h : j < L.length) (d : F) :
    (L.take (j + 1)).getLastD d = L.getD j d := by
  rw [take_succ_getD L j d h, List.getLastD_concat]

theorem take_dropLast (L : List F) (j : Nat) (h : j < L.length) :
    (L.take (j + 1)).dropLast = L.take j := by
  rw [take_succ_getD L j (F.fld 0) h, List.dropLast_concat]

theorem appendLoop_spec : ∀ d fuel k : Nat, ∀ hashes : Nat → F, ∀ t ec m : Nat, ∀ L : List F, ∀ c : Nat → F,
    d = t - k →
    k ≤ t →
    t ≤ m →
    m = L.length →
    d + 1 ≤ fuel →
    (∀ j, k ≤ j → j < t → getHeight (ec + 2 + j) = j + 1) →
    getHeight (ec + 2 + t) = 0 →
    (∀ j, k ≤ j → j < t → c (j + 1) = F.H (L.getD (m - 1 - j) (F.fld 0)) (c j)) →
    hashes (ec + 1 + k) = c k →
    ∃ h2 : Nat → F,
      appendLoop fuel hashes (L.take (m - k) ++ [c k]) (ec + 1 + k) k =
        .ok (h2, L.take (m - t) ++ [c t], ec + 1 + t) ∧
      (∀ i, i ≤ ec + 1 + k → h2 i = hashes i) ∧
      h2 (ec + 1 + t) = c t := by
  intro d
  induction d with
  | zero =>
      intro fuel k hashes t ec m L c hd hkt htm hm hfuel hh1 hh2 hc hcur
      have hkt2 : k = t := by omega
      subst hkt2
      obtain ⟨f, rfl⟩ : ∃ j, fuel = j + 1 := ⟨fuel - 1, by omega⟩
      have hcond : ¬(k < getHeight (ec + 1 + k + 1)) := by
        rw [show ec + 1 + k + 1 = ec + 2 + k by omega, hh2]
        omega
      refine ⟨hashes, ?_, fun i _ => rfl, hcur⟩
      simp only [appendLoop, if_neg hcond]
  | succ d ih =>
      intro fuel k hashes t ec m L c hd hkt htm hm hfuel hh1 hh2 hc hcur
      have hklt : k < t := by omega
      obtain ⟨f, rfl⟩ : ∃ j, fuel = j + 1 := ⟨fuel - 1, by omega⟩
      have hcond : k < getHeight (ec + 1 + k + 1) := by
        rw [show ec + 1 + k + 1 = ec + 2 + k by omega, hh1 k le_rfl hklt]
        omega
      have hlen : (L.take (m - k) ++ [c k]).length = (m - k) + 1 := by
        simp [List.length_take]
        omega
      have hlencond : ¬((L.take (m - k) ++ [c k]).length < 2) := by omega
      have hmk : m - k = (m - k - 1) + 1 := by omega
      have hright : (L.take (m - k) ++ [c k]).getLastD (F.fld 0) = c k := List.getLastD_concat _ _ _
      have hdrop1 : (L.take (m - k) ++ [c k]).dropLast = L.take (m - k) := List.dropLast_concat
      have hleft : (L.take (m - k)).getLastD (F.fld 0) = L.getD (m - k - 1) (F.fld 0) := by
        rw [hmk]
        exact take_getLastD L (m - k - 1) (by omega) (F.fld 0)
      have hdrop2 : (L.take (m - k)).dropLast = L.take (m - k - 1) := by
        rw [hmk]
        exact take_dropLast L (m - k - 1) (by omega)
      have hparent : F.H (L.getD (m - k - 1) (F.fld 0)) (c k) = c (k + 1) := by
        rw [show m - k - 1 = m - 1 - k by omega]
        exact (hc k le_rfl hklt).symm
      have hstep : appendLoop (f + 1) hashes (L.take (m - k) ++ [c k]) (ec + 1 + k) k =
          appendLoop f (updateHash hashes (ec + 1 + k + 1) (c (k + 1)))
            (L.take (m - (k + 1)) ++ [c (k + 1)]) (ec + 1 + k + 1) (k + 1) := by
        simp only [appendLoop, if_pos hcond, if_neg hlencond]
        rw [hright, hdrop1, hleft, hdrop2, hparent]
        congr 2
      obtain ⟨h2, hEq, hPres, hLast⟩ := ih f (k + 1)
        (updateHash hashes (ec + 1 + k + 1) (c (k + 1))) t ec m L c
        (by omega) (by omega) htm hm (by omega)
        (fun j hj1 hj2 => hh1 j (by omega) hj2) hh2
        (fun j hj1 hj2 => hc j (by omega) hj2)
        (by
          show updateHash hashes (ec + 1 + k + 1) (c (k + 1)) (ec + 1 + (k + 1)) = c (k + 1)
          rw [updateHash]
          simp only [show ec + 1 + (k + 1) = ec + 1 + k + 1 by omega]
          simp)
      refine ⟨h2, ?_, ?_, ?_⟩
      · rw [hstep]
        rw [show ec + 1 + (k + 1) = ec + 1 + k + 1 by omega] at hEq
        exact hEq
      · intro i hi
        have := hPres i (by omega)
        rw [this, updateHash]
        rw [if_neg (by omega)]
      · exact hLast

theorem two_pow_trailingOnes_le (n : Nat) : 2 ^ trailingOnes n - 1 ≤ n := by
  obtain ⟨hi, hdec, _⟩ := trailingOnes_decomp n
  omega

theorem append_step (vs : List F) (v : F) (s : MerkleMountainRange)
    (hbound : vs.length + 1 < 2 ^ 61)
    (hlv : s.leavesCount = vs.length)
    (hec : s.elementsCount = mmrSize vs.length)
    (hmap : (peakPosFrom 0 vs.length).map s.hashes = peakHashList vs) :
    ∃ s2 r, append s v = .ok (s2, r) ∧
      s2.leavesCount = (vs ++ [v]).length ∧
      s2.elementsCount = mmrSize (vs ++ [v]).length ∧
      ((peakPosFrom 0 (vs ++ [v]).length).map s2.hashes = peakHashList (vs ++ [v])) ∧
      s2.rootHash = F.H (F.fld (mmrSize (vs ++ [v]).length)) (bagThePeaks (peakHashList (vs ++ [v]))) ∧
      r.elementIndex = mmrSize vs.length + 1 ∧
      s2.hashes (mmrSize vs.length + 1) = v ∧
      r.rootHash = s2.rootHash ∧ r.elementsCount = s2.elementsCount ∧
      r.leavesCount = s2.leavesCount := by
  set n := vs.length with hn
  set t := trailingOnes n with ht
  set m := popcount n with hm
  set L := peakHashList vs with hL
  set ec := mmrSize n with hecn
  have htm : t ≤ m := trailingOnes_le_popcount n
  have hmsz : m ≤ sz n := popcount_le_sz n
  have hsz61 : sz n ≤ 61 := (sz_le_iff n 61).2 (by omega)
  have hecb : ec ≤ 2 * n := by
    have := popcount_le n
    show 2 * n - popcount n ≤ 2 * n
    omega
  have hLlen : m = L.length := (peakHashList_len vs).symm
  have h2t : 2 ^ t - 1 ≤ n := two_pow_trailingOnes_le n
  have hfp : findPeaks s.elementsCount = peakPosFrom 0 n := by
    rw [hec]
    exact findPeaks_peakPos n (by omega)
  have hpeaks : retrievePeaksHashes s (findPeaks s.elementsCount) = L := by
    rw [hfp]
    exact hmap
  -- the chain of merge hashes
  set c : Nat → F := fun k => pt ((vs ++ [v]).drop (n + 1 - 2 ^ k)) with hc
  have hc0 : c 0 = v := by
    rw [hc]
    simp only [pow_zero]
    have hdr : (vs ++ [v]).drop (n + 1 - 1) = [v] := by
      rw [show n + 1 - 1 = n by omega, hn]
      rw [List.drop_append_of_le_length le_rfl, List.drop_length, List.nil_append]
    rw [hdr, pt_one]
  have hmerge := appendLoop_spec t 64 0 (updateHash s.hashes (ec + 1) v) t ec m L c
    (by omega) (by omega) htm hLlen (by omega)
    (by
      intro j hj0 hjt
      rw [getHeight_eq (ec + 2 + j) (by omega) (by
        have : (2:Nat) ^ 63 ≥ 2 ^ 62 := by norm_num
        have h61 : n < 2 ^ 61 := by omega
        have : (2:Nat) ^ 62 = 2 * 2 ^ 61 := by norm_num
        have h64 : (2:Nat) ^ 64 ≥ 2 ^ 62 := by norm_num
        omega)]
      rw [show ec + 2 + j = mmrSize n + 1 + (j + 1) by omega]
      exact heightNat_merge_pos n (j + 1) (by omega) (by omega))
    (by
      rw [getHeight_eq (ec + 2 + t) (by omega) (by
        have h61 : n < 2 ^ 61 := by omega
        have : (2:Nat) ^ 64 ≥ 2 ^ 62 := by norm_num
        have : (2:Nat) ^ 62 = 2 * 2 ^ 61 := by norm_num
        omega)]
      rw [show ec + 2 + t = mmrSize (n + 1) + 1 by rw [mmrSize_succ]; omega]
      exact heightNat_mmrSize_add_one (n + 1))
    (by
      intro j hj0 hjt
      have hblock := peakHashList_trailing_block vs j (by rw [← hn, ← ht]; omega)
      rw [← hn, ← hm, ← hL] at hblock
      rw [hblock]
      have hjlen : 2 ^ (j + 1) - 1 ≤ n := by
        have hmono : (2:Nat) ^ (j + 1) ≤ 2 ^ t := Nat.pow_le_pow_right (by omega) (by omega)
        omega
      have hcs := chain_step vs v j (by rw [← hn]; omega)
      rw [← hn] at hcs
      exact hcs.symm)
    (by
      show updateHash s.hashes (ec + 1) v (ec + 1 + 0) = c 0
      rw [hc0, updateHash]
      simp)
  obtain ⟨h2, hEq, hPres, hLast⟩ := hmerge
  rw [show m - 0 = m by omega] at hEq
  rw [hLlen, List.take_length] at hEq
  rw [hc0] at hEq
  -- identify the working list after the loop with the canonical peaks of n + 1
  have hct : c t = pt (vs.drop (n - (2 ^ t - 1)) ++ [v]) := by
    have hdr : (vs ++ [v]).drop (n + 1 - 2 ^ t) = vs.drop (n - (2 ^ t - 1)) ++ [v] := by
      have hpt1 : 1 ≤ (2:Nat) ^ t := Nat.one_le_two_pow
      rw [show n + 1 - 2 ^ t = n - (2 ^ t - 1) by omega]
      exact drop_append_single vs v _ (by omega)
    show pt ((vs ++ [v]).drop (n + 1 - 2 ^ t)) = _
    rw [hdr]
  have hpeaks2 : L.take (m - t) ++ [c t] = peakHashList (vs ++ [v]) := by
    rw [peakHashList_step vs v, hct]
  -- the new element count
  have hecnew : mmrSize (n + 1) = ec + 1 + t := by rw [mmrSize_succ]
  have hlennew : (vs ++ [v]).length = n + 1 := by simp [← hn]
  -- map over the new peak positions
  have hmapnew : (peakPosFrom 0 (n + 1)).map h2 = peakHashList (vs ++ [v]) := by
    rw [peakPosFrom_step n, ← hm, ← ht]
    rw [List.map_append]
    have hmap1 : ((peakPosFrom 0 n).take (m - t)).map h2 = L.take (m - t) := by
      have hcongr : ((peakPosFrom 0 n).take (m - t)).map h2 =
          ((peakPosFrom 0 n).take (m - t)).map s.hashes := by
        apply List.map_congr_left
        intro q hq
        have hqmem : q ∈ peakPosFrom 0 n := List.mem_of_mem_take hq
        have hqb := peakPosFrom_le n 0 q hqmem
        have hq1 : h2 q = updateHash s.hashes (ec + 1) v q := hPres q (by omega)
        rw [hq1, updateHash]
        rw [if_neg (by omega)]
      rw [hcongr, List.map_take, hmap]
    have hmap2 : [mmrSize (n + 1)].map h2 = [c t] := by
      simp only [List.map_cons, List.map_nil]
      rw [hecnew]
      rw [hLast]
    rw [hmap1, hmap2, hpeaks2]
  simp only [Nat.add_zero] at hEq hPres
  have happ : append s v = Except.ok
      ({ leavesCount := s.leavesCount + 1, elementsCount := ec + 1 + t, hashes := h2,
         rootHash := calculateRootHash (bagThePeaks (L.take (m - t) ++ [c t])) (ec + 1 + t) },
       { leavesCount := s.leavesCount + 1, elementsCount := ec + 1 + t,
         elementIndex := ec + 1,
         rootHash := calculateRootHash (bagThePeaks (L.take (m - t) ++ [c t])) (ec + 1 + t) }) := by
    unfold append
    dsimp only
    rw [hpeaks, hec]
    rw [show List.take (L.length - t) L = L.take (m - t) by rw [← hLlen]] at hEq
    rw [hEq]
  refine ⟨_, _, happ, ?_, ?_, ?_, ?_, ?_, ?_, ?_, ?_, ?_⟩
  · show s.leavesCount + 1 = (vs ++ [v]).length
    rw [hlennew, hlv]
  · show ec + 1 + t = mmrSize (vs ++ [v]).length
    rw [hlennew, hecnew]
  · show (peakPosFrom 0 (vs ++ [v]).length).map h2 = peakHashList (vs ++ [v])
    rw [hlennew]
    exact hmapnew
  · show calculateRootHash (bagThePeaks (L.take (m - t) ++ [c t])) (ec + 1 + t) =
      F.H (F.fld (mmrSize (vs ++ [v]).length)) (bagThePeaks (peakHashList (vs ++ [v])))
    rw [hpeaks2, calculateRootHash, hlennew, hecnew]
  · show ec + 1 = ec + 1
    rfl
  · show h2 (ec + 1) = v
    rw [hPres (ec + 1) (by omega), updateHash]
    simp
  · rfl
  · rfl
  · rfl

theorem appendList_cons (s : MerkleMountainRange) (v : F) (rest : List F) :
    appendList s (v :: rest) = (append s v).bind (fun p => appendList p.1 rest) := rfl

theorem appendList_spec : ∀ ws vs : List F, ∀ s : MerkleMountainRange,
    vs.length + ws.length < 2 ^ 61 →
    s.leavesCount = vs.length →
    s.elementsCount = mmrSize vs.length →
    ((peakPosFrom 0 vs.length).map s.hashes = peakHashList vs) →
    (1 ≤ vs.length →
      s.rootHash = F.H (F.fld (mmrSize vs.length)) (bagThePeaks (peakHashList vs))) →
    ∃ s2, appendList s ws = .ok s2 ∧
      s2.leavesCount = (vs ++ ws).length ∧
      s2.elementsCount = mmrSize (vs ++ ws).length ∧
      ((peakPosFrom 0 (vs ++ ws).length).map s2.hashes = peakHashList (vs ++ ws)) ∧
      (1 ≤ (vs ++ ws).length →
        s2.rootHash = F.H (F.fld (mmrSize (vs ++ ws).length)) (bagThePeaks (peakHashList (vs ++ ws)))) := by
  intro ws
  induction ws with
  | nil =>
      intro vs s hb h1 h2 h3 h4
      exact ⟨s, rfl, by simpa using h1, by simpa using h2, by simpa using h3, by simpa using h4⟩
  | cons w rest ih =>
      intro vs s hb h1 h2 h3 h4
      obtain ⟨s2, r, happ, k1, k2, k3, k4, _, _, _, _, _⟩ :=
        append_step vs w s (by simp only [List.length_cons] at hb; omega) h1 h2 h3
      have hcall : appendList s (w :: rest) = appendList s2 rest := by
        rw [appendList_cons, happ]
        rfl
      rw [hcall]
      obtain ⟨s3, hrun, m1, m2, m3, m4⟩ := ih (vs ++ [w]) s2
        (by simp only [List.length_cons, List.length_append, List.length_nil] at hb ⊢; omega)
        k1 k2 k3 (fun _ => k4)
      refine ⟨s3, hrun, ?_, ?_, ?_, ?_⟩ <;>
        simp only [List.append_assoc, List.singleton_append] at m1 m2 m3 m4 ⊢ <;>
        [exact m1; exact m2; exact m3; exact m4]

theorem appendAll_spec (values : List F) (hb : values.length < 2 ^ 61) :
    ∃ s, appendAll values = .ok s ∧
      s.leavesCount = values.length ∧
      s.elementsCount = mmrSize values.length ∧
      ((peakPosFrom 0 values.length).map s.hashes = peakHashList values) ∧
      (1 ≤ values.length →
        s.rootHash = F.H (F.fld (mmrSize values.length)) (bagThePeaks (peakHashList values))) := by
  have := appendList_spec values [] emptyMMR
    (by simp only [List.length_nil, Nat.zero_add]; omega)
    rfl rfl (by simp [peakPosFrom_zero, peakHashList_nil]) (by intro h; simp at h)
  simpa using this

/-! ## The bagging fold -/

theorem bagThePeaks_nil : bagThePeaks [] = F.fld 0 := rfl

theorem bagThePeaks_single (p : F) : bagThePeaks [p] = p := rfl

theorem bagThePeaks_cons (x : F) (l : List F) (h : 2 ≤ l.length) :
    bagThePeaks (x :: l) = F.H x (bagThePeaks l) := by
  obtain ⟨m, hm⟩ : ∃ m, l.length = m + 2 := ⟨l.length - 2, by omega⟩
  simp only [bagThePeaks, List.length_cons, hm]
  rw [if_neg (by omega), if_neg (by omega), if_neg (by omega), if_neg (by omega)]
  have h2 : m + 2 + 1 - 2 = m + 1 := by omega
  have h3 : m + 2 + 1 - 1 = m + 2 := by omega
  have h4 : m + 2 - 2 = m := by omega
  have h5 : m + 2 - 1 = m + 1 := by omega
  rw [h2, h3, h4, h5]
  rw [List.getD_cons_succ, List.getD_cons_succ, List.take_succ_cons,
    List.reverse_cons, List.foldl_append]
  rfl

/-- `bagThePeaks` computes exactly the right-to-left fold the spec
describes. -/
theorem bagThePeaks_eq_bagSpec : ∀ l : List F, bagThePeaks l = bagSpec l := by
  intro l
  induction l with
  | nil => rfl
  | cons x t ih =>
      cases t with
      | nil => rfl
      | cons q r =>
          cases r with
          | nil => rfl
          | cons a b =>
              rw [bagThePeaks_cons x (q :: a :: b) (by simp only [List.length_cons]; omega)]
              rw [ih]
              rfl

theorem bagSpec_cons (x : F) (t : List F) (h : t ≠ []) :
    bagSpec (x :: t) = F.H x (bagSpec t) := by
  cases t with
  | nil => exact absurd rfl h
  | cons q r => rfl

/-- Changing one entry of the peak list (to a genuinely different hash)
changes the bagged value: in the free hash algebra the fold is injective in
every slot. -/
theorem bagSpec_set_ne : ∀ (l : List F) (j : Nat) (h' : F), j < l.length →
    h' ≠ l.getD j (F.fld 0) → bagSpec (l.set j h') ≠ bagSpec l := by
  intro l
  induction l with
  | nil => intro j h' hj; simp at hj
  | cons x t ih =>
      intro j h' hj hne
      cases j with
      | zero =>
          have hx : h' ≠ x := by simpa using hne
          simp only [List.set_cons_zero]
          cases t with
          | nil => simpa using hx
          | cons q r =>
              rw [bagSpec_cons h' (q :: r) (by simp), bagSpec_cons x (q :: r) (by simp)]
              intro heq
              rw [F.H.injEq] at heq
              exact hx heq.1
      | succ k =>
          have hk : k < t.length := by simpa using hj
          have hne' : h' ≠ t.getD k (F.fld 0) := by simpa using hne
          have iht := ih k h' hk hne'
          have htne : t ≠ [] := by
            intro hcon
            rw [hcon] at hk
            simp at hk
          have hsne : t.set k h' ≠ [] := by
            intro hcon
            have hlen : (t.set k h').length = 0 := by rw [hcon]; rfl
            rw [List.length_set] at hlen
            omega
          simp only [List.set_cons_succ]
          rw [bagSpec_cons x (t.set k h') hsne, bagSpec_cons x t htne]
          intro heq
          rw [F.H.injEq] at heq
          exact iht heq.2

/-- The "substitution" map of `verifyProof` is the identity. -/
theorem substitute_map_id (h : F) : ∀ l : List F,
    (l.map fun ph => if ph = h then h else ph) = l := by
  intro l
  induction l with
  | nil => rfl
  | cons a t ih =>
      simp only [List.map_cons, ih]
      by_cases ha : a = h
      · rw [if_pos ha, ha]
      · rw [if_neg ha]

/-- When the index guards pass, `verifyProof` returns the comparison of
`H(elementsCount, bag(peaksHashes))` against the store's `rootHash`: the
`siblingsHashes` (and with them the climb and the leaf value) do not affect
the outcome, because the peak substitution is the identity. -/
theorem verifyProof_eq (s : MerkleMountainRange) (leaf : F) (proof : Proof)
    (h1 : 1 ≤ proof.elementIndex) (h2 : proof.elementIndex ≤ proof.elementsCount) :
    verifyProof s leaf proof =
      .ok (decide (calculateRootHash (bagThePeaks proof.peaksHashes) proof.elementsCount
        = s.rootHash)) := by
  unfold verifyProof
  rw [if_neg (by omega), if_neg (by omega)]
  dsimp only
  rw [substitute_map_id]

/-! ## Termination of the proof climb -/

theorem proofStepIter_add : ∀ (k1 k2 i : Nat),
    proofStepIter (k1 + k2) i = proofStepIter k2 (proofStepIter k1 i) := by
  intro k1
  induction k1 with
  | zero => intro k2 i; rw [Nat.zero_add]; rfl
  | succ k ih =>
      intro k2 i
      rw [show k + 1 + k2 = (k + k2) + 1 from by omega]
      show proofStepIter (k + k2) (proofStep i) = _
      rw [ih]
      rfl

/-- If some iterate of the climb step lands on a peak within the fuel, the
climb loop of `getProof` terminates with a result. -/
theorem getProofLoop_term : ∀ (fuel k : Nat) (peaks : List Nat) (index : Nat)
    (siblings : List Nat), k < fuel →
    (peaks.any fun pk => pk == proofStepIter k index) = true →
    ∃ out, getProofLoop fuel peaks index siblings = some out := by
  intro fuel
  induction fuel with
  | zero => intro k peaks index siblings hk _; omega
  | succ f ih =>
      intro k peaks index siblings hk hmem
      by_cases hpk : (peaks.any fun pk => pk == index) = true
      · exact ⟨siblings, by simp only [getProofLoop, if_pos hpk]⟩
      · cases k with
        | zero => exact absurd hmem hpk
        | succ k' =>
            have hstep : (peaks.any fun pk => pk == proofStepIter k' (proofStep index)) = true :=
              hmem
            by_cases hh : getHeight (index + 1) = getHeight index + 1
            · have hps : proofStep index = index + 1 := by
                unfold proofStep; rw [if_pos hh]
              obtain ⟨out, hout⟩ := ih k' peaks (index + 1)
                (siblings ++ [index - siblingOffset (getHeight index)]) (by omega)
                (by rw [← hps]; exact hstep)
              exact ⟨out, by simp only [getProofLoop, if_neg hpk, if_pos hh]; exact hout⟩
            · have hps : proofStep index = index + parentOffset (getHeight index) := by
                unfold proofStep; rw [if_neg hh]
              obtain ⟨out, hout⟩ := ih k' peaks (index + parentOffset (getHeight index))
                (siblings ++ [index + siblingOffset (getHeight index)]) (by omega)
                (by rw [← hps]; exact hstep)
              exact ⟨out, by simp only [getProofLoop, if_neg hpk, if_neg hh]; exact hout⟩

theorem heightNat_two_pow (a : Nat) : heightNat (2 ^ (a + 1)) = 0 := by
  have hp : 1 ≤ (2:Nat) ^ (a + 1) := Nat.one_le_two_pow
  have hp2 : (2:Nat) ^ (a + 1) ≥ 2 := by
    calc (2:Nat) = 2 ^ 1 := by norm_num
    _ ≤ 2 ^ (a + 1) := Nat.pow_le_pow_right (by norm_num) (by omega)
  have h := heightNat_peel (a + 1) 1 (by omega) (by omega)
  rw [show 2 ^ (a + 1) - 1 + 1 = 2 ^ (a + 1) from by omega] at h
  rw [h, heightNat_one]

/-- Inside one perfect mountain the climb of `getProof` reaches the
mountain's root: from a left child the step lands on the right sibling's
root (the source adds `parentOffset = 2^(h+1)-1`, one less than the
standard parent offset), and from a right child it lands on the parent, so
at most two steps are spent per level. -/
theorem climb_walk : ∀ (a off : Nat), a ≤ 62 →
    (∀ rel, 1 ≤ rel → rel ≤ 2 ^ (a + 1) - 1 → getHeight (off + rel) = heightNat rel) →
    ∀ rel, 1 ≤ rel → rel ≤ 2 ^ (a + 1) - 1 →
    ∃ k, k ≤ 2 * a + 1 ∧ proofStepIter k (off + rel) = off + (2 ^ (a + 1) - 1) := by
  intro a
  induction a with
  | zero =>
      intro off _ _ rel h1 h2
      have : rel = 1 := by norm_num at h2; omega
      subst this
      exact ⟨0, by omega, rfl⟩
  | succ a ih =>
      intro off ha hagree rel h1 h2
      have hpa : 1 ≤ (2:Nat) ^ (a + 1) := Nat.one_le_two_pow
      have hpow : (2:Nat) ^ (a + 1 + 1) = 2 * 2 ^ (a + 1) := by rw [pow_succ]; ring
      have hpo : parentOffset a = 2 ^ (a + 1) - 1 := by
        unfold parentOffset; rw [pow2_eq (a + 1) (by omega)]
      -- the heights at the four positions the final hops touch
      have hHL : getHeight (off + (2 ^ (a + 1) - 1)) = a := by
        rw [hagree _ (by omega) (by omega)]
        exact heightNat_all_ones_value a
      have hHL1 : getHeight (off + 2 ^ (a + 1)) = 0 := by
        rw [hagree _ (by omega) (by omega)]
        exact heightNat_two_pow a
      have hHQ : getHeight (off + (2 ^ (a + 1 + 1) - 2)) = a := by
        rw [hagree _ (by omega) (by omega)]
        rw [show 2 ^ (a + 1 + 1) - 2 = 2 ^ (a + 1) - 1 + (2 ^ (a + 1) - 1) from by omega]
        rw [heightNat_peel (a + 1) _ (by omega) (by omega)]
        exact heightNat_all_ones_value a
      have hHS : getHeight (off + (2 ^ (a + 1 + 1) - 1)) = a + 1 := by
        rw [hagree _ (by omega) (by omega)]
        exact heightNat_all_ones_value (a + 1)
      -- the hop from the left subtree's root to the right subtree's root
      have step_L : proofStep (off + (2 ^ (a + 1) - 1)) = off + (2 ^ (a + 1 + 1) - 2) := by
        unfold proofStep
        rw [show off + (2 ^ (a + 1) - 1) + 1 = off + 2 ^ (a + 1) from by omega]
        rw [hHL1, hHL, if_neg (by omega), hpo]
        omega
      -- the hop from the right subtree's root to the mountain's root
      have step_Q : proofStep (off + (2 ^ (a + 1 + 1) - 2)) = off + (2 ^ (a + 1 + 1) - 1) := by
        unfold proofStep
        rw [show off + (2 ^ (a + 1 + 1) - 2) + 1 = off + (2 ^ (a + 1 + 1) - 1) from by omega]
        rw [hHS, hHQ, if_pos (by omega)]
      rcases Nat.lt_or_ge rel (2 ^ (a + 1 + 1) - 1) with htop | htop
      · rcases le_or_lt rel (2 ^ (a + 1) - 1) with hleft | hright
        · -- in the left subtree: walk to its root, then two hops
          obtain ⟨k, hk, hiter⟩ := ih off (by omega)
            (fun x hx1 hx2 => hagree x hx1 (by omega)) rel h1 hleft
          refine ⟨k + 2, by omega, ?_⟩
          rw [proofStepIter_add k 2, hiter]
          rw [show proofStepIter 2 (off + (2 ^ (a + 1) - 1)) =
            proofStep (proofStep (off + (2 ^ (a + 1) - 1))) from rfl]
          rw [step_L, step_Q]
        · -- in the right subtree: walk to its root, then one hop
          have hrel' : rel = (2 ^ (a + 1) - 1) + (rel - (2 ^ (a + 1) - 1)) := by omega
          have hagree' : ∀ x, 1 ≤ x → x ≤ 2 ^ (a + 1) - 1 →
              getHeight (off + (2 ^ (a + 1) - 1) + x) = heightNat x := by
            intro x hx1 hx2
            rw [show off + (2 ^ (a + 1) - 1) + x = off + (2 ^ (a + 1) - 1 + x) from by omega]
            rw [hagree _ (by omega) (by omega)]
            exact heightNat_peel (a + 1) x hx1 hx2
          obtain ⟨k, hk, hiter⟩ := ih (off + (2 ^ (a + 1) - 1)) (by omega) hagree'
            (rel - (2 ^ (a + 1) - 1)) (by omega) (by omega)
          rw [show off + (2 ^ (a + 1) - 1) + (rel - (2 ^ (a + 1) - 1)) = off + rel from by omega]
            at hiter
          rw [show off + (2 ^ (a + 1) - 1) + (2 ^ (a + 1) - 1) = off + (2 ^ (a + 1 + 1) - 2)
            from by omega] at hiter
          refine ⟨k + 1, by omega, ?_⟩
          rw [proofStepIter_add k 1, hiter]
          rw [show proofStepIter 1 (off + (2 ^ (a + 1 + 1) - 2)) =
            proofStep (off + (2 ^ (a + 1 + 1) - 2)) from rfl]
          rw [step_Q]
      · -- already at the mountain's root
        refine ⟨0, by omega, ?_⟩
        rw [show rel = 2 ^ (a + 1 + 1) - 1 from by omega]
        rfl

/-- Every position of the MMR lies in exactly one mountain: there is a peak
`d + (2^(e+1) - 1)` whose mountain `[d+1, d+2^(e+1)-1]` contains the
position, and inside that mountain the canonical heights look like those of
a standalone perfect tree. -/
theorem mountain_partition : ∀ (n off rel : Nat), 1 ≤ rel → rel ≤ mmrSize n →
    ∃ d e, off ≤ d ∧ e + 1 ≤ sz n ∧ (d + (2 ^ (e + 1) - 1)) ∈ peakPosFrom off n ∧
      d < off + rel ∧ off + rel ≤ d + (2 ^ (e + 1) - 1) ∧
      (∀ x, 1 ≤ x → x ≤ 2 ^ (e + 1) - 1 → heightNat (d - off + x) = heightNat x) := by
  intro n
  induction n using Nat.strong_induction_on with
  | _ n ih =>
    intro off rel h1 h2
    have hn1 : 1 ≤ n := by
      by_contra hc
      have : n = 0 := by omega
      subst this
      rw [mmrSize_zero] at h2
      omega
    obtain ⟨a, hszn⟩ : ∃ a, sz n = a + 1 := ⟨sz n - 1, by have := sz_pos n hn1; omega⟩
    have hlo : 2 ^ a ≤ n := by
      have := two_pow_sz_le n hn1
      rw [hszn] at this
      simpa using this
    have hhi : n < 2 ^ (a + 1) := by rw [← hszn]; exact lt_two_pow_sz n
    have hpa : 1 ≤ (2:Nat) ^ a := Nat.one_le_two_pow
    have hpow : (2:Nat) ^ (a + 1) = 2 * 2 ^ a := by rw [pow_succ]; ring
    have hsize : mmrSize n = (2 ^ (a + 1) - 1) + mmrSize (n - 2 ^ a) := by
      have := mmrSize_high_bit a (n - 2 ^ a) (by omega)
      rw [show 2 ^ a + (n - 2 ^ a) = n from by omega] at this
      exact this
    have hcons := peakPosFrom_succ off n hn1
    rw [hszn] at hcons
    simp only [Nat.add_sub_cancel] at hcons
    by_cases hc : rel ≤ 2 ^ (a + 1) - 1
    · refine ⟨off, a, Nat.le_refl off, by omega, ?_, by omega, by omega, ?_⟩
      · rw [hcons]
        exact List.mem_cons_self _ _
      · intro x hx1 hx2
        rw [Nat.sub_self, Nat.zero_add]
    · have hn' : 1 ≤ n - 2 ^ a := by
        by_contra hcc
        have h0 : n - 2 ^ a = 0 := by omega
        rw [h0, mmrSize_zero] at hsize
        omega
      obtain ⟨d, e, hd1, he1, hmem, hlt, hle, htrans⟩ :=
        ih (n - 2 ^ a) (by omega) (off + (2 ^ (a + 1) - 1)) (rel - (2 ^ (a + 1) - 1))
          (by omega) (by omega)
      have hszle : sz (n - 2 ^ a) ≤ a := (sz_le_iff _ _).2 (by omega)
      have hq := peakPosFrom_le (n - 2 ^ a) (off + (2 ^ (a + 1) - 1)) _ hmem
      have hms : mmrSize (n - 2 ^ a) ≤ 2 * (n - 2 ^ a) - 1 := mmrSize_le _ hn'
      refine ⟨d, e, by omega, by omega, ?_, by omega, by omega, ?_⟩
      · rw [hcons]
        exact List.mem_cons_of_mem _ hmem
      · intro x hx1 hx2
        have hy1 : 1 ≤ d - (off + (2 ^ (a + 1) - 1)) + x := by omega
        have hy2 : d - (off + (2 ^ (a + 1) - 1)) + x ≤ 2 ^ (a + 1) - 1 := by omega
        rw [show d - off + x = 2 ^ (a + 1) - 1 + (d - (off + (2 ^ (a + 1) - 1)) + x)
          from by omega]
        rw [heightNat_peel (a + 1) _ hy1 hy2]
        exact htrans x hx1 hx2

/-- From every position in `[1, mmrSize n]` the climb reaches a peak within
121 steps. -/
theorem climb_reaches (n i : Nat) (hn1 : 1 ≤ n) (hn2 : n < 2 ^ 61)
    (hi1 : 1 ≤ i) (hi2 : i ≤ mmrSize n) :
    ∃ k, k ≤ 121 ∧ ((peakPosFrom 0 n).any fun pk => pk == proofStepIter k i) = true := by
  obtain ⟨d, e, _, he1, hmem, hlt, hle, htrans⟩ := mountain_partition n 0 i hi1 hi2
  have hsz61 : sz n ≤ 61 := (sz_le_iff _ _).2 hn2
  have he60 : e ≤ 60 := by omega
  have hpk_le := peakPosFrom_le n 0 _ hmem
  have hmmr_lt : mmrSize n < 2 ^ 64 := by
    have hle2 : mmrSize n ≤ 2 * n := Nat.sub_le _ _
    have hp : (2:Nat) ^ 61 * 8 = 2 ^ 64 := by norm_num
    omega
  have hagree : ∀ x, 1 ≤ x → x ≤ 2 ^ (e + 1) - 1 → getHeight (d + x) = heightNat x := by
    intro x hx1 hx2
    have hb2 : d + x < 2 ^ 64 := by omega
    rw [getHeight_eq (d + x) (by omega) hb2]
    have := htrans x hx1 hx2
    simpa using this
  obtain ⟨k, hk, hiter⟩ := climb_walk e d (by omega) hagree (i - d) (by omega) (by omega)
  refine ⟨k, by omega, ?_⟩
  rw [show d + (i - d) = i from by omega] at hiter
  rw [List.any_eq_true]
  exact ⟨d + (2 ^ (e + 1) - 1), hmem, by rw [hiter]; exact beq_self_eq_true _⟩

/-- On a store whose `elementsCount` is the MMR size of `n` leaves,
`getProof` succeeds for every position in range and returns the position,
its stored hash, the stored peak hashes and the tree size. -/
theorem getProof_ok (s : MerkleMountainRange) (n : Nat) (hn1 : 1 ≤ n) (hn2 : n < 2 ^ 61)
    (hec : s.elementsCount = mmrSize n) (i : Nat) (hi1 : 1 ≤ i) (hi2 : i ≤ mmrSize n) :
    ∃ pf, getProof s i = .ok pf ∧ pf.elementIndex = i ∧ pf.elementsCount = mmrSize n ∧
      pf.elementHash = s.hashes i ∧ pf.peaksHashes = (peakPosFrom 0 n).map s.hashes := by
  obtain ⟨k, hk, hany⟩ := climb_reaches n i hn1 hn2 hi1 hi2
  obtain ⟨sib, hsib⟩ := getProofLoop_term 200 k (peakPosFrom 0 n) i [] (by omega) hany
  unfold getProof
  rw [if_neg (by omega), if_neg (by omega)]
  dsimp only
  rw [hec, findPeaks_peakPos n hn2, hsib]
  exact ⟨_, rfl, rfl, rfl, rfl, rfl⟩

/-! ## The claims -/

/-- C4: after every sequence of `n ≥ 0` sequential appends from the empty
store, `elementsCount = 2 * leavesCount - popcount leavesCount` with
`leavesCount = n` (stated for `n < 2^61`, the range in which the source's
64-bit arithmetic is faithful). -/
theorem elementsCount_leavesCount_invariant (vs : List F) (h : vs.length < 2 ^ 61) :
    ∃ s, appendAll vs = .ok s ∧ s.leavesCount = vs.length ∧
      s.elementsCount = 2 * s.leavesCount - popcount s.leavesCount := by
  obtain ⟨s, hrun, hlv, hec, _, _⟩ := appendAll_spec vs h
  exact ⟨s, hrun, hlv, by rw [hec, hlv]; rfl⟩

theorem elementsCount_leavesCount_invariant_witness :
    demoValues.length < 2 ^ 61 ∧
    ∃ s, appendAll demoValues = .ok s ∧ s.leavesCount = demoValues.length ∧
      s.elementsCount = 2 * s.leavesCount - popcount s.leavesCount :=
  ⟨by decide, elementsCount_leavesCount_invariant demoValues (by decide)⟩

/-- C5: `bagThePeaks` returns the zero sentinel on `[]`, the peak itself on
`[p]`, and otherwise the right-to-left fold the spec describes (`bagSpec`);
and after every nonempty sequence of appends the stored `rootHash` equals
`H(elementsCount, bagThePeaks(current peaks))`. -/
theorem bagging_and_root_invariant :
    bagThePeaks [] = F.fld 0 ∧ (∀ p : F, bagThePeaks [p] = p) ∧
    (∀ l : List F, bagThePeaks l = bagSpec l) ∧
    (∀ vs : List F, 1 ≤ vs.length → vs.length < 2 ^ 61 →
      ∃ s, appendAll vs = .ok s ∧
        s.rootHash = calculateRootHash (bagThePeaks (getPeaks s)) s.elementsCount) := by
  refine ⟨rfl, fun p => rfl, bagThePeaks_eq_bagSpec, ?_⟩
  intro vs h1 h2
  obtain ⟨s, hrun, hlv, hec, hmap, hroot⟩ := appendAll_spec vs h2
  refine ⟨s, hrun, ?_⟩
  have hpeaks : getPeaks s = peakHashList vs := by
    unfold getPeaks
    rw [hec, findPeaks_peakPos vs.length h2]
    exact hmap
  rw [hpeaks, hec, hroot h1]
  rfl

/-- C7: `getProof` fails with one of the two `InvalidIndex` throws exactly
when the index is outside `[1, elementsCount]`. -/
theorem getProof_invalid_index_iff : ∀ (s : MerkleMountainRange) (i : Nat),
    isInvalidIndexResult (getProof s i) = true ↔ (i < 1 ∨ s.elementsCount < i) := by
  intro s i
  unfold getProof
  by_cases hs : i < 1
  · rw [if_pos hs]
    simp [isInvalidIndexResult, hs]
  · rw [if_neg hs]
    by_cases hl : s.elementsCount < i
    · rw [if_pos hl]
      simp [isInvalidIndexResult, hs, hl]
    · rw [if_neg hl]
      dsimp only
      cases hloop : getProofLoop 200 (findPeaks s.elementsCount) i [] with
      | none => simp [isInvalidIndexResult, hs, hl]
      | some sib => simp [isInvalidIndexResult, hs, hl]

/-- C8: appends never hit a capacity ceiling: the position-to-hash map grows
with every append, the appended value is stored at the newly allocated leaf
position, and this holds for every length (stated for `< 2^61`, far beyond
the preallocated `MAX_ELEMENTS = 2097151`). -/
theorem append_unbounded_growth (vs : List F) (v : F) (h : vs.length + 1 < 2 ^ 61) :
    ∃ s s2 r, appendAll vs = .ok s ∧ append s v = .ok (s2, r) ∧
      r.elementIndex = s.elementsCount + 1 ∧ s2.hashes r.elementIndex = v ∧
      s2.leavesCount = vs.length + 1 := by
  obtain ⟨s, hrun, hlv, hec, hmap, _⟩ := appendAll_spec vs (by omega)
  obtain ⟨s2, r, happ, k1, k2, k3, k4, hidx, hsto, _, _, _⟩ :=
    append_step vs v s h hlv hec hmap
  refine ⟨s, s2, r, hrun, happ, by omega, ?_, by simpa using k1⟩
  rw [hidx]
  exact hsto

theorem append_unbounded_growth_witness :
    demoValues.length + 1 < 2 ^ 61 ∧
    ∃ s s2 r, appendAll demoValues = .ok s ∧ append s (F.fld 40) = .ok (s2, r) ∧
      r.elementIndex = s.elementsCount + 1 ∧ s2.hashes r.elementIndex = F.fld 40 ∧
      s2.leavesCount = demoValues.length + 1 :=
  ⟨by decide, append_unbounded_growth demoValues (F.fld 40) (by decide)⟩

/-- `append` on any store with `elementsCount = 0`: stores the value at
position 1, which is immediately a peak. -/
theorem append_on_empty (t : MerkleMountainRange) (x : F) (h : t.elementsCount = 0) :
    append t x = .ok
      (⟨t.leavesCount + 1, 1, updateHash t.hashes 1 x, F.H (F.fld 1) x⟩,
       ⟨t.leavesCount + 1, 1, 1, F.H (F.fld 1) x⟩) := by
  unfold append
  dsimp only
  rw [h]
  rw [show findPeaks 0 = [] from rfl]
  dsimp only [retrievePeaksHashes, List.map, List.nil_append, Nat.zero_add]
  rw [show appendLoop 64 (updateHash t.hashes 1 x) [x] 1 0 =
    .ok (updateHash t.hashes 1 x, [x], 1) from rfl]
  dsimp only
  rw [show bagThePeaks [x] = x from rfl]
  rfl

/-- C9: `clear()` followed by `append x` yields the same append result (and
the same `rootHash`, `leavesCount` and `elementsCount`) as appending `x` to
a freshly constructed store. -/
theorem clear_append_fresh_equivalence (s : MerkleMountainRange) (x : F) :
    ∃ s2 r2 s3 r3, append (clear s) x = .ok (s2, r2) ∧ append emptyMMR x = .ok (s3, r3) ∧
      r2 = r3 ∧ s2.rootHash = s3.rootHash ∧ s2.leavesCount = s3.leavesCount ∧
      s2.elementsCount = s3.elementsCount :=
  ⟨_, _, _, _, append_on_empty (clear s) x rfl, append_on_empty emptyMMR x rfl,
    rfl, rfl, rfl, rfl⟩

/-- C10: on every store reachable by appends from the empty store the next
append succeeds; in particular the merge loop's `'Not enough elements in
peaks to pop'` branch is never taken. -/
theorem append_no_peak_underflow (vs : List F) (v : F) (h : vs.length + 1 < 2 ^ 61) :
    ∃ s, appendAll vs = .ok s ∧ ∀ e : AppendError, append s v ≠ .error e := by
  obtain ⟨s, hrun, hlv, hec, hmap, _⟩ := appendAll_spec vs (by omega)
  obtain ⟨s2, r, happ, _⟩ := append_step vs v s h hlv hec hmap
  refine ⟨s, hrun, ?_⟩
  intro e hcon
  rw [happ] at hcon
  exact Except.noConfusion hcon

theorem append_no_peak_underflow_witness :
    demoValues.length + 1 < 2 ^ 61 ∧
    ∃ s, appendAll demoValues = .ok s ∧ ∀ e : AppendError, append s (F.fld 40) ≠ .error e :=
  ⟨by decide, append_no_peak_underflow demoValues (F.fld 40) (by decide)⟩

/-- C1 (corrected): for every store built by `n ≥ 1` sequential appends from
the empty store and every position `i ∈ [1, elementsCount]`, `getProof i`
succeeds and `verifyProof` of the stored value accepts against the store.
The spec's concrete detail is wrong: after appending A, B, C, `getProof 1`
returns `siblingsHashes = [B, A]` — the climb steps from position 1 to the
right sibling's root 2 and then to the peak 3, recording positions 2 and 1 —
not `[B]`; verification still succeeds because `verifyProof` never reads
`siblingsHashes`. -/
theorem getProof_verifyProof_roundtrip (vs : List F) (i : Nat)
    (h1 : 1 ≤ vs.length) (h2 : vs.length < 2 ^ 61)
    (hi1 : 1 ≤ i) (hi2 : i ≤ mmrSize vs.length) :
    ∃ s pf, appendAll vs = .ok s ∧ getProof s i = .ok pf ∧
      verifyProof s (s.hashes i) pf = .ok true := by
  obtain ⟨s, hrun, hlv, hec, hmap, hroot⟩ := appendAll_spec vs h2
  obtain ⟨pf, hgp, hidx, hcount, hhash, hpeaks⟩ := getProof_ok s vs.length h1 h2 hec i hi1 hi2
  refine ⟨s, pf, hrun, hgp, ?_⟩
  rw [verifyProof_eq s _ pf (by omega) (by omega)]
  rw [hpeaks, hmap, hcount]
  rw [hroot h1]
  simp [calculateRootHash]

set_option maxHeartbeats 2000000 in
theorem getProof_verifyProof_roundtrip_witness :
    1 ≤ demoValues.length ∧ demoValues.length < 2 ^ 61 ∧ 1 ≤ 1 ∧
    1 ≤ mmrSize demoValues.length ∧
    (∃ s pf, appendAll demoValues = .ok s ∧ getProof s 1 = .ok pf ∧
      verifyProof s (s.hashes 1) pf = .ok true) :=
  ⟨by decide, by decide, by decide, by decide,
    getProof_verifyProof_roundtrip demoValues 1 (by decide) (by decide) (by decide) (by decide)⟩

set_option maxHeartbeats 4000000 in
theorem getProof_demo_siblings_not_singleton :
    (proofAt (storeOf demoValues) 1).siblingsHashes = [F.fld 20, F.fld 10] ∧
    (proofAt (storeOf demoValues) 1).siblingsHashes ≠ [F.fld 20] ∧
    appendAll demoValues = .ok (storeOf demoValues) ∧
    getProof (storeOf demoValues) 1 = .ok (proofAt (storeOf demoValues) 1) :=
  ⟨by decide, by decide, rfl, rfl⟩

/-- C2 (corrected): for a proof produced by `getProof` on a reachable store,
changing any single hash of `peaksHashes` (to a different value) makes
`verifyProof` return `false`, but changing a hash of `siblingsHashes` does
NOT: the verification result ignores `siblingsHashes` entirely, so the
tampered proof still verifies. -/
theorem proof_tamper_detection (vs : List F) (i : Nat)
    (h1 : 1 ≤ vs.length) (h2 : vs.length < 2 ^ 61)
    (hi1 : 1 ≤ i) (hi2 : i ≤ mmrSize vs.length)
    (s : MerkleMountainRange) (pf : Proof)
    (hs : appendAll vs = .ok s) (hpf : getProof s i = .ok pf) :
    (∀ j h', j < pf.peaksHashes.length → h' ≠ pf.peaksHashes.getD j (F.fld 0) →
      verifyProof s (s.hashes i)
        { pf with peaksHashes := pf.peaksHashes.set j h' } = .ok false) ∧
    (∀ j h', verifyProof s (s.hashes i)
        { pf with siblingsHashes := pf.siblingsHashes.set j h' } = .ok true) := by
  obtain ⟨s0, hrun, hlv, hec, hmap, hroot⟩ := appendAll_spec vs h2
  rw [hs] at hrun
  injection hrun with hs0
  subst hs0
  obtain ⟨pf0, hgp, hidx, hcount, hhash, hpeaks⟩ := getProof_ok s vs.length h1 h2 hec i hi1 hi2
  rw [hpf] at hgp
  injection hgp with hpf0
  subst hpf0
  have hpl : pf.peaksHashes = peakHashList vs := by rw [hpeaks, hmap]
  constructor
  · intro j h' hj hne
    rw [verifyProof_eq s _ _ (by show 1 ≤ pf.elementIndex; omega)
      (by show pf.elementIndex ≤ pf.elementsCount; omega)]
    rw [hpl] at hj hne
    show Except.ok (decide (calculateRootHash (bagThePeaks (pf.peaksHashes.set j h'))
      pf.elementsCount = s.rootHash)) = .ok false
    rw [hpl, hcount, hroot h1, bagThePeaks_eq_bagSpec]
    have hnot : ¬(calculateRootHash (bagSpec ((peakHashList vs).set j h')) (mmrSize vs.length)
        = F.H (F.fld (mmrSize vs.length)) (bagThePeaks (peakHashList vs))) := by
      intro heq
      unfold calculateRootHash at heq
      rw [F.H.injEq] at heq
      rw [bagThePeaks_eq_bagSpec] at heq
      exact bagSpec_set_ne (peakHashList vs) j h' hj hne heq.2
    rw [decide_eq_false hnot]
  · intro j h'
    rw [verifyProof_eq s _ _ (by show 1 ≤ pf.elementIndex; omega)
      (by show pf.elementIndex ≤ pf.elementsCount; omega)]
    show Except.ok (decide (calculateRootHash (bagThePeaks pf.peaksHashes)
      pf.elementsCount = s.rootHash)) = .ok true
    rw [hpl, hcount, hroot h1]
    simp [calculateRootHash]

set_option maxHeartbeats 4000000 in
theorem proof_tamper_detection_witness :
    verifyProof (storeOf demoValues) ((storeOf demoValues).hashes 1)
      { proofAt (storeOf demoValues) 1 with
        peaksHashes := ((proofAt (storeOf demoValues) 1).peaksHashes).set 0 (F.fld 99) }
      = .ok false ∧
    verifyProof (storeOf demoValues) ((storeOf demoValues).hashes 1)
      { proofAt (storeOf demoValues) 1 with
        siblingsHashes := ((proofAt (storeOf demoValues) 1).siblingsHashes).set 0 (F.fld 99) }
      = .ok true :=
  ⟨(proof_tamper_detection demoValues 1 (by decide) (by decide) (by decide) (by decide)
      (storeOf demoValues) (proofAt (storeOf demoValues) 1) rfl rfl).1 0 (F.fld 99)
      (by decide) (by decide),
   (proof_tamper_detection demoValues 1 (by decide) (by decide) (by decide) (by decide)
      (storeOf demoValues) (proofAt (storeOf demoValues) 1) rfl rfl).2 0 (F.fld 99)⟩

set_option maxHeartbeats 4000000 in
theorem sibling_flip_still_verifies :
    F.fld 99 ≠ ((proofAt (storeOf demoValues) 1).siblingsHashes).getD 0 (F.fld 0) ∧
    0 < ((proofAt (storeOf demoValues) 1).siblingsHashes).length ∧
    verifyProof (storeOf demoValues) (F.fld 10)
      { proofAt (storeOf demoValues) 1 with
        siblingsHashes := ((proofAt (storeOf demoValues) 1).siblingsHashes).set 0 (F.fld 99) }
      = .ok true :=
  ⟨by decide, by decide, by decide⟩

/-- C3 (corrected): `verifyProof` is not the spec's pure three-argument
function: there is no `expectedRoot` parameter, and the final comparison is
against the store's own current `rootHash`. The result depends on the store
exactly through `rootHash`: stores with equal `rootHash` agree on every
argument, and there are stores on which identical arguments give different
results. -/
theorem verifyProof_depends_on_store_root :
    (∀ s1 s2 : MerkleMountainRange, ∀ leaf : F, ∀ pf : Proof,
      s1.rootHash = s2.rootHash → verifyProof s1 leaf pf = verifyProof s2 leaf pf) ∧
    (∃ s1 s2 : MerkleMountainRange, ∃ leaf : F, ∃ pf : Proof,
      verifyProof s1 leaf pf ≠ verifyProof s2 leaf pf) := by
  constructor
  · intro s1 s2 leaf pf h
    unfold verifyProof
    rw [h]
  · exact ⟨storeOf demoValues, emptyMMR, F.fld 10, proofAt (storeOf demoValues) 1, by decide⟩

set_option maxHeartbeats 4000000 in
theorem verifyProof_store_dependent :
    verifyProof (storeOf demoValues) (F.fld 10) (proofAt (storeOf demoValues) 1) = .ok true ∧
    verifyProof emptyMMR (F.fld 10) (proofAt (storeOf demoValues) 1) = .ok false :=
  ⟨by decide, by decide⟩

/-- C6 (corrected): `getHeight p` is the canonical postorder height
`heightNat p` (peel complete all-ones blocks until the position is the root
of one), which is NOT the number of trailing zero bits of `p + 1`: already
at `p = 1` the code returns height 0 while `trailingZeroBits 2 = 1`. -/
theorem getHeight_is_canonical_height (p : Nat) (h1 : 1 ≤ p) (h2 : p < 2 ^ 64) :
    getHeight p = heightNat p :=
  getHeight_eq p h1 h2

theorem getHeight_is_canonical_height_witness :
    1 ≤ 7 ∧ 7 < 2 ^ 64 ∧ getHeight 7 = heightNat 7 :=
  ⟨by decide, by decide, getHeight_is_canonical_height 7 (by decide) (by decide)⟩

theorem getHeight_not_trailing_zeros :
    getHeight 1 = 0 ∧ trailingZeroBits (1 + 1) = 1 ∧
    getHeight 1 ≠ trailingZeroBits (1 + 1) :=
  ⟨by decide, by decide, by decide⟩
